import Mathlib

/-!
# A verification model of the Hanabi rules engine

This file gives a shallow embedding, in Lean 4, of the Hanabi game-state core
(`hanabi_state.cc`): the card supply (deck), the game state, legality checking,
move application, chance outcomes, and terminal-status evaluation.  C++ `int`
fields are modelled as `Int`, vectors as `List`, and fatal failures (violated
`REQUIRE`/`assert` preconditions, and out-of-bounds accesses that the C++ code
would perform as undefined behaviour) as `Option` results, `none` meaning the
call does not complete.  Types that the core consumes from outside the shown
translation unit (game configuration, cards, hands with per-card hint
knowledge) are modelled from the specification of their interfaces.

The move-history log is an append-only record that no operation of the core
ever reads back; it is not tracked by this model.
-/

set_option maxHeartbeats 1000000
set_option maxRecDepth 4096

namespace Hanabi

/-- Modelled from the spec: the chance actor is a sentinel value multiplexed
through the integer actor field (constant `kChancePlayerId = -1`). -/
def kChancePlayerId : Int := -1

/-- Modelled from the spec: Card value type — a (color, rank) pair of ints;
the default-constructed card is the explicit invalid sentinel `(-1, -1)`. -/
structure HanabiCard where
  color : Int
  rank : Int
deriving DecidableEq, Repr

/-- The invalid card returned by `HanabiCard()`. -/
def HanabiCard.invalid : HanabiCard := ⟨-1, -1⟩

/-- Modelled from the spec: a card is valid iff both fields are non-negative. -/
def HanabiCard.IsValid (c : HanabiCard) : Bool :=
  decide (0 ≤ c.color ∧ 0 ≤ c.rank)

/-- Modelled from the spec: the read-only game configuration consumed by the
core (player/color/rank counts, hand size, token limits, per-identity card
multiplicities, and the observation mode used when dealing). -/
structure HanabiGame where
  numPlayers : Nat
  numColors : Nat
  numRanks : Nat
  handSize : Nat
  maxInformationTokens : Int
  maxLifeTokens : Int
  numberCardInstances : Nat → Nat → Int
  seerObservation : Bool

/-- Modelled from the spec: the per-card knowledge record a hand keeps next to
each card.  Only the parts the verified claims inspect are tracked: the
configured dimensions and the directly hinted color/rank (fresh knowledge has
neither). -/
structure CardKnowledge where
  num_colors : Nat
  num_ranks : Nat
  color_hinted : Option Int
  rank_hinted : Option Int
deriving DecidableEq, Repr

/-- A freshly initialised `CardKnowledge(numColors, numRanks)`. -/
def CardKnowledge.fresh (g : HanabiGame) : CardKnowledge :=
  ⟨g.numColors, g.numRanks, none, none⟩

/-- Modelled from the spec: one slot of a hand — a card paired with the
knowledge record tracking what hints have revealed about it. -/
structure HandCard where
  card : HanabiCard
  knowledge : CardKnowledge
deriving DecidableEq, Repr

/-- The card supply (`HanabiState::HanabiDeck`): remaining multiplicity of
every (color, rank) identity, stored as a flat vector indexed by
`color * num_ranks + rank`, together with the cached total count. -/
structure HanabiDeck where
  card_count : List Int
  total_count : Int
  num_ranks : Nat
deriving DecidableEq, Repr

namespace HanabiDeck

/-- `CardToIndex(color, rank) = color * num_ranks_ + rank` (modelled from the
spec: index layout of the flat count vector). -/
def CardToIndex (d : HanabiDeck) (color rank : Int) : Int :=
  color * (d.num_ranks : Int) + rank

/-- `CardCount(color, rank)`: remaining count of an identity.  An index the
C++ code could not read (out of the vector's range) is modelled as count 0. -/
def CardCount (d : HanabiDeck) (color rank : Int) : Int :=
  let index := d.CardToIndex color rank
  if index < 0 then 0 else d.card_count.getD index.toNat 0

/-- `Size()`: total number of cards remaining in the supply. -/
def Size (d : HanabiDeck) : Int := d.total_count

/-- Modelled from the spec: `IsEmpty()` — the supply is empty when the total
remaining count is zero. -/
def Empty (d : HanabiDeck) : Bool := decide (d.total_count = 0)

/-- The deck built by `HanabiDeck(game)`: every identity starts at its
configured multiplicity, and the running total is accumulated alongside. -/
def init (game : HanabiGame) : HanabiDeck :=
  let counts := (List.range (game.numColors * game.numRanks)).map
    (fun i => game.numberCardInstances (i / game.numRanks) (i % game.numRanks))
  { card_count := counts, total_count := counts.sum, num_ranks := game.numRanks }

/-- `DealCard(color, rank)`: deterministic draw by identity.  If the identity
has no remaining count the invalid card is returned and nothing changes;
otherwise the slot and the total are decremented and the identity decoded from
the slot index is returned. -/
def DealCard (d : HanabiDeck) (color rank : Int) : HanabiCard × HanabiDeck :=
  let index := d.CardToIndex color rank
  if index < 0 then (HanabiCard.invalid, d)
  else if d.card_count.getD index.toNat 0 ≤ 0 then (HanabiCard.invalid, d)
  else (⟨((index.toNat / d.num_ranks : Nat) : Int), ((index.toNat % d.num_ranks : Nat) : Int)⟩,
        { d with card_count := d.card_count.set index.toNat (d.card_count.getD index.toNat 0 - 1),
                 total_count := d.total_count - 1 })

/-- `DealCard(rng)`: weighted-random draw.  The externally sampled slot index
(chosen by the rng with probability proportional to its remaining count) is
passed in explicitly; the sampling guarantee that a drawn slot has positive
count is the C++ `assert`, modelled as `none` when violated.  On an empty
supply the invalid card is returned without consulting the rng. -/
def DealCardRandom (d : HanabiDeck) (index : Nat) : Option (HanabiCard × HanabiDeck) :=
  if d.Empty then some (HanabiCard.invalid, d)
  else if d.card_count.getD index 0 ≤ 0 then none
  else some (⟨((index / d.num_ranks : Nat) : Int), ((index % d.num_ranks : Nat) : Int)⟩,
             { d with card_count := d.card_count.set index (d.card_count.getD index 0 - 1),
                      total_count := d.total_count - 1 })

/-- `AddCard(color, rank)`: restore one count of an identity. -/
def AddCard (d : HanabiDeck) (color rank : Int) : HanabiDeck :=
  let index := d.CardToIndex color rank
  if index < 0 then d
  else { d with card_count := d.card_count.set index.toNat (d.card_count.getD index.toNat 0 + 1),
                total_count := d.total_count + 1 }

end HanabiDeck

/-- The discriminated move union.  `invalid` stands for any other/unknown move
type (the C++ default tag). -/
inductive HanabiMove where
  | deal (color rank : Int)
  | discard (card_index : Nat)
  | play (card_index : Nat)
  | revealColor (target_offset : Int) (color : Int)
  | revealRank (target_offset : Int) (rank : Int)
  | invalid
deriving DecidableEq, Repr

/-- Modelled from the spec: `HanabiMove::Color()` — the color payload of a
move, `-1` for variants that carry none. -/
def HanabiMove.Color : HanabiMove → Int
  | .deal c _ => c
  | .revealColor _ c => c
  | _ => -1

/-- Modelled from the spec: `HanabiMove::Rank()`. -/
def HanabiMove.Rank : HanabiMove → Int
  | .deal _ r => r
  | .revealRank _ r => r
  | _ => -1

/-- Modelled from the spec: `HanabiMove::TargetOffset()`. -/
def HanabiMove.TargetOffset : HanabiMove → Int
  | .revealColor t _ => t
  | .revealRank t _ => t
  | _ => -1

/-- The game state owned by `HanabiState`: supply, hands, discard pile,
fireworks, token counters, actor pointers and the end-game countdown. -/
structure HanabiState where
  game : HanabiGame
  deck : HanabiDeck
  hands : List (List HandCard)
  discard_pile : List HanabiCard
  cur_player : Int
  next_non_chance_player : Int
  information_tokens : Int
  life_tokens : Int
  fireworks : List Int
  turns_to_play : Int

namespace HanabiState

/-- The state built by `HanabiState(game, start_player)`: full deck, empty
hands and discard pile, chance to act first, all tokens available, zeroed
fireworks, and `NumPlayers` final turns once the supply empties.
`start_player` is the resulting first non-chance actor (either the valid
argument or the externally sampled start player, both in range). -/
def init (game : HanabiGame) (start_player : Int) : HanabiState :=
  { game := game
    deck := HanabiDeck.init game
    hands := List.replicate game.numPlayers []
    discard_pile := []
    cur_player := kChancePlayerId
    next_non_chance_player := start_player
    information_tokens := game.maxInformationTokens
    life_tokens := game.maxLifeTokens
    fireworks := List.replicate game.numColors 0
    turns_to_play := (game.numPlayers : Int) }

/-- The hand of player `p` (`hands_[p]`); an index the C++ code could not read
is modelled as an empty hand. -/
def handOf (s : HanabiState) (p : Int) : List HandCard :=
  if p < 0 then [] else s.hands.getD p.toNat []

/-- Modelled from the spec: `HandByOffset(offset)` resolves
`hands_[(cur_player_ + offset) % hands_.size()]`. -/
def HandByOffset (s : HanabiState) (offset : Int) : List HandCard :=
  let i := s.cur_player + offset
  if i < 0 then [] else s.hands.getD ((i % (s.hands.length : Int)).toNat) []

/-- `IncrementInformationTokens()`: recover one information token if under the
cap; returns whether a token was actually recovered. -/
def IncrementInformationTokens (s : HanabiState) : Bool × HanabiState :=
  if s.information_tokens < s.game.maxInformationTokens then
    (true, { s with information_tokens := s.information_tokens + 1 })
  else
    (false, s)

/-- `DecrementInformationTokens()`: spend one information token; the
`assert(information_tokens_ > 0)` precondition is modelled as `none`. -/
def DecrementInformationTokens (s : HanabiState) : Option HanabiState :=
  if s.information_tokens ≤ 0 then none
  else some { s with information_tokens := s.information_tokens - 1 }

/-- `DecrementLifeTokens()`: spend one life token; the
`assert(life_tokens_ > 0)` precondition is modelled as `none`. -/
def DecrementLifeTokens (s : HanabiState) : Option HanabiState :=
  if s.life_tokens ≤ 0 then none
  else some { s with life_tokens := s.life_tokens - 1 }

/-- `CardPlayableOnFireworks(color, rank)`: a card is playable iff its color
is in range and its rank equals the current fireworks progress for that
color. -/
def CardPlayableOnFireworks (s : HanabiState) (color rank : Int) : Bool :=
  if color < 0 ∨ (s.game.numColors : Int) ≤ color then false
  else decide (rank = s.fireworks.getD color.toNat 0)

/-- `AddToFireworks(card)`: evaluate a played card.  Playable: that color's
progress increments, and if the increment completes the color's rank range an
information token is recovered (when under the cap).  Not playable: a life
token is spent.  Returns `(scored, information_token_gained)` with the updated
state. -/
def AddToFireworks (s : HanabiState) (card : HanabiCard) : Option ((Bool × Bool) × HanabiState) :=
  if s.CardPlayableOnFireworks card.color card.rank then
    let fw := s.fireworks.getD card.color.toNat 0 + 1
    let s1 := { s with fireworks := s.fireworks.set card.color.toNat fw }
    if fw = (s.game.numRanks : Int) then
      some ((true, (s1.IncrementInformationTokens).1), (s1.IncrementInformationTokens).2)
    else
      some ((true, false), s1)
  else
    (s.DecrementLifeTokens).map (fun s1 => ((false, false), s1))

/-- `HintingIsLegal(move)`: a hint needs an information token and a target
offset in `[1, NumPlayers)`. -/
def HintingIsLegal (s : HanabiState) (move : HanabiMove) : Bool :=
  if s.information_tokens ≤ 0 then false
  else if move.TargetOffset < 1 ∨ (s.game.numPlayers : Int) ≤ move.TargetOffset then false
  else true

/-- `PlayerToDeal()`: the lowest-indexed player whose hand is below the
configured hand size, `-1` if every hand is full. -/
def PlayerToDeal (s : HanabiState) : Int :=
  match s.hands.findIdx? (fun hand => decide (hand.length < s.game.handSize)) with
  | some i => (i : Int)
  | none => -1

/-- `MoveIsLegal(move)`: the pure legality predicate, an exhaustive match on
the move tag. -/
def MoveIsLegal (s : HanabiState) (move : HanabiMove) : Bool :=
  match move with
  | .deal color rank =>
    if s.cur_player ≠ kChancePlayerId then false
    else if s.deck.CardCount color rank = 0 then false
    else true
  | .discard card_index =>
    if s.game.maxInformationTokens ≤ s.information_tokens then false
    else if (s.handOf s.cur_player).length ≤ card_index then false
    else true
  | .play card_index =>
    if (s.handOf s.cur_player).length ≤ card_index then false
    else true
  | .revealColor _ color =>
    if ¬ s.HintingIsLegal move then false
    else if ¬ (s.HandByOffset move.TargetOffset).any (fun hc => hc.card.color == color) then false
    else true
  | .revealRank _ rank =>
    if ¬ s.HintingIsLegal move then false
    else if ¬ (s.HandByOffset move.TargetOffset).any (fun hc => hc.card.rank == rank) then false
    else true
  | .invalid => false

/-- `AdvanceToNextPlayer()`: chance acts next iff the supply is non-empty and
some hand is short a card; otherwise the stored next non-chance actor acts and
the pointer advances round-robin. -/
def AdvanceToNextPlayer (s : HanabiState) : HanabiState :=
  if ¬ s.deck.Empty ∧ 0 ≤ s.PlayerToDeal then
    { s with cur_player := kChancePlayerId }
  else
    { s with cur_player := s.next_non_chance_player,
             next_non_chance_player := (s.next_non_chance_player + 1) % (s.hands.length : Int) }

/-- The `--turns_to_play_` step at the top of `ApplyMove`: once the supply is
empty every application counts against the remaining turns. -/
def tickTurns (s : HanabiState) : HanabiState :=
  if s.deck.Empty then { s with turns_to_play := s.turns_to_play - 1 } else s

/-- The knowledge a freshly dealt card starts with: unrevealed, or pre-hinted
with its own identity under the seer observation mode. -/
def dealKnowledge (g : HanabiGame) (color rank : Int) : CardKnowledge :=
  if g.seerObservation then
    { CardKnowledge.fresh g with color_hinted := some color, rank_hinted := some rank }
  else CardKnowledge.fresh g

/-- The `kDeal` branch of `ApplyMove`: the identity is drawn from the supply
and handed, with fresh knowledge (pre-revealed under the seer observation
mode), to the player still short a card.  A missing deal target or an invalid
drawn card would fault in the C++ code (`hands_[-1]` / `HanabiHand::AddCard`
on an invalid card): modelled as `none`. -/
def applyDeal (s : HanabiState) (color rank : Int) : Option HanabiState :=
  match s.hands.findIdx? (fun hand => decide (hand.length < s.game.handSize)) with
  | none => none
  | some p =>
    let card := (s.deck.DealCard color rank).1
    let deck1 := (s.deck.DealCard color rank).2
    if ¬ card.IsValid then none
    else
      some { s with deck := deck1,
                    hands := s.hands.set p
                      ((s.hands.getD p []) ++ [⟨card, dealKnowledge s.game color rank⟩]) }

/-- The `kDiscard` branch of `ApplyMove`: an information token is recovered if
under the cap, and the indexed card moves from the hand to the discard pile. -/
def applyDiscard (s : HanabiState) (card_index : Nat) : Option HanabiState :=
  let hand := s.handOf s.cur_player
  match hand[card_index]? with
  | none => none
  | some hc =>
    let s1 := (s.IncrementInformationTokens).2
    some { s1 with hands := s1.hands.set s.cur_player.toNat (hand.eraseIdx card_index),
                   discard_pile := s1.discard_pile ++ [hc.card] }

/-- The `kPlay` branch of `ApplyMove`: the indexed card is evaluated against
the fireworks and removed from the hand, going to the discard pile only when
it did not score. -/
def applyPlay (s : HanabiState) (card_index : Nat) : Option HanabiState :=
  let hand := s.handOf s.cur_player
  match hand[card_index]? with
  | none => none
  | some hc =>
    (s.AddToFireworks hc.card).map (fun r =>
      let scored := r.1.1
      let s1 := r.2
      { s1 with hands := s1.hands.set s.cur_player.toNat (hand.eraseIdx card_index),
                discard_pile := if scored then s1.discard_pile
                                else s1.discard_pile ++ [hc.card] })

/-- Modelled from the spec: the knowledge update a color hint applies to one
hand slot (`HanabiHand::RevealColor`); only the directly revealed color is
tracked. -/
def revealColorSlot (color : Int) (hc : HandCard) : HandCard :=
  if hc.card.color = color then
    { hc with knowledge := { hc.knowledge with color_hinted := some color } }
  else hc

/-- Modelled from the spec: the knowledge update a rank hint applies to one
hand slot (`HanabiHand::RevealRank`). -/
def revealRankSlot (rank : Int) (hc : HandCard) : HandCard :=
  if hc.card.rank = rank then
    { hc with knowledge := { hc.knowledge with rank_hinted := some rank } }
  else hc

/-- The index into `hands_` that `HandByOffset` resolves to; `none` models the
out-of-range access the C++ code would perform on a negative index. -/
def targetIndex (s : HanabiState) (offset : Int) : Option Nat :=
  let i := s.cur_player + offset
  if i < 0 then none else some ((i % (s.hands.length : Int)).toNat)

/-- The `kRevealColor` branch of `ApplyMove`: an information token is spent
and the target hand's knowledge is updated. -/
def applyRevealColor (s : HanabiState) (offset color : Int) : Option HanabiState :=
  (s.DecrementInformationTokens).bind (fun s1 =>
    match targetIndex s offset with
    | none => none
    | some t =>
      some { s1 with hands := s1.hands.set t ((s1.hands.getD t []).map (revealColorSlot color)) })

/-- The `kRevealRank` branch of `ApplyMove`. -/
def applyRevealRank (s : HanabiState) (offset rank : Int) : Option HanabiState :=
  (s.DecrementInformationTokens).bind (fun s1 =>
    match targetIndex s offset with
    | none => none
    | some t =>
      some { s1 with hands := s1.hands.set t ((s1.hands.getD t []).map (revealRankSlot rank)) })

/-- The per-tag mutation step of `ApplyMove`, the exhaustive match on the move
tag (`std::abort()` on an unhandled tag, modelled as `none`). -/
def stepMove (s : HanabiState) (move : HanabiMove) : Option HanabiState :=
  match move with
  | .deal color rank => s.applyDeal color rank
  | .discard i => s.applyDiscard i
  | .play i => s.applyPlay i
  | .revealColor offset color => s.applyRevealColor offset color
  | .revealRank offset rank => s.applyRevealRank offset rank
  | .invalid => none

/-- `ApplyMove(move)`: `REQUIRE(MoveIsLegal(move))` (modelled as `none` when
violated), the end-game countdown tick, the per-tag mutation, and finally the
advance to the next actor. -/
def ApplyMove (s : HanabiState) (move : HanabiMove) : Option HanabiState :=
  if ¬ s.MoveIsLegal move then none
  else (s.tickTurns.stepMove move).map AdvanceToNextPlayer

/-- `ChanceOutcomeProb(move)`: remaining count of the named identity divided
by the total remaining supply size.  The C++ code computes this in `double`;
the model uses exact rationals. -/
def ChanceOutcomeProb (s : HanabiState) (move : HanabiMove) : ℚ :=
  ((s.deck.CardCount move.Color move.Rank : ℚ)) / ((s.deck.Size : ℚ))

/-- Modelled from the spec: the configured chance-outcome catalog — one Deal
move per (color, rank) identity, enumerated by flat uid. -/
def chanceOutcomeCatalog (game : HanabiGame) : List HanabiMove :=
  (List.range (game.numColors * game.numRanks)).map
    (fun uid => HanabiMove.deal ((uid / game.numRanks : Nat) : Int) ((uid % game.numRanks : Nat) : Int))

/-- `ChanceOutcomes()`: the legal deals of the catalog paired with their
probabilities. -/
def ChanceOutcomes (s : HanabiState) : List HanabiMove × List ℚ :=
  let legal := (chanceOutcomeCatalog s.game).filter (fun m => s.MoveIsLegal m)
  (legal, legal.map (fun m => s.ChanceOutcomeProb m))

/-- `Score()`: zero once the life tokens are gone, otherwise the summed
fireworks progress. -/
def Score (s : HanabiState) : Int :=
  if s.life_tokens ≤ 0 then 0 else s.fireworks.sum

/-- The terminal statuses reported by `EndOfGameStatus()`. -/
inductive EndOfGameType where
  | kNotFinished
  | kOutOfLifeTokens
  | kOutOfCards
  | kCompletedFireworks
deriving DecidableEq, Repr

/-- `EndOfGameStatus()`: evaluated on demand as a total function of state. -/
def EndOfGameStatus (s : HanabiState) : EndOfGameType :=
  if s.life_tokens < 1 then .kOutOfLifeTokens
  else if (s.game.numColors * s.game.numRanks : Int) ≤ s.Score then .kCompletedFireworks
  else if s.turns_to_play ≤ 0 then .kOutOfCards
  else .kNotFinished

/-- `SetHandCard(player, card_index, card)`: a determinization setter.  The
three `REQUIRE` preconditions are modelled as `none`; then the old card's
identity is returned to the supply, the requested identity is taken from the
supply when available (and silently not taken otherwise), and the hand slot is
replaced with the requested card under fresh knowledge. -/
def SetHandCard (s : HanabiState) (player : Int) (card_index : Nat) (card : HanabiCard) :
    Option HanabiState :=
  if player < 0 ∨ (s.hands.length : Int) ≤ player then none
  else
    let hand := s.hands.getD player.toNat []
    match hand[card_index]? with
    | none => none
    | some old =>
      if ¬ card.IsValid then none
      else
        let deck1 := if old.card.IsValid then s.deck.AddCard old.card.color old.card.rank
                     else s.deck
        let deck2 := (deck1.DealCard card.color card.rank).2
        some { s with deck := deck2,
                      hands := s.hands.set player.toNat
                        (hand.set card_index ⟨card, CardKnowledge.fresh s.game⟩) }

end HanabiState

end Hanabi

namespace Hanabi

/-! ## Auxiliary list lemmas -/

theorem getD_eq_of_getElem? {α : Type*} {l : List α} {n : Nat} {a : α} (d : α)
    (h : l[n]? = some a) : l.getD n d = a := by
  rw [List.getD_eq_getElem?_getD, h, Option.getD_some]

theorem getD_nonneg {l : List Int} (h : ∀ x ∈ l, 0 ≤ x) (n : Nat) : 0 ≤ l.getD n 0 := by
  rw [List.getD_eq_getElem?_getD]
  cases hn : l[n]? with
  | none => simp
  | some a => simpa using h a (List.getElem?_mem hn)

theorem sum_set_int (l : List Int) (n : Nat) (a : Int) (h : n < l.length) :
    (l.set n a).sum = l.sum - l.getD n 0 + a := by
  induction l generalizing n with
  | nil => simp at h
  | cons x t ih =>
    cases n with
    | zero => simp [List.getD]; ring
    | succ m =>
      simp only [List.set_cons_succ, List.sum_cons, List.getD_cons_succ]
      rw [ih m (by simpa using h)]
      ring

theorem countP_eraseIdx {α : Type*} (p : α → Bool) (l : List α) (n : Nat) (a : α)
    (h : l[n]? = some a) :
    List.countP p l = List.countP p (l.eraseIdx n) + (if p a then 1 else 0) := by
  induction l generalizing n with
  | nil => simp at h
  | cons x t ih =>
    cases n with
    | zero =>
      simp only [List.getElem?_cons_zero, Option.some_inj] at h
      subst h
      simp [List.countP_cons]
    | succ m =>
      simp only [List.getElem?_cons_succ] at h
      simp only [List.eraseIdx_cons_succ, List.countP_cons]
      rw [ih m h]
      omega

theorem countP_set {α : Type*} (p : α → Bool) (l : List α) (n : Nat) (a b : α)
    (h : l[n]? = some a) :
    List.countP p (l.set n b) + (if p a then 1 else 0)
      = List.countP p l + (if p b then 1 else 0) := by
  induction l generalizing n with
  | nil => simp at h
  | cons x t ih =>
    cases n with
    | zero =>
      simp only [List.getElem?_cons_zero, Option.some_inj] at h
      subst h
      simp only [List.set_cons_zero, List.countP_cons]
      omega
    | succ m =>
      simp only [List.getElem?_cons_succ] at h
      simp only [List.set_cons_succ, List.countP_cons]
      have := ih m h
      omega

/-! ## Projection lemmas for the small state transformers -/

theorem tickTurns_game (s : HanabiState) : s.tickTurns.game = s.game := by
  unfold HanabiState.tickTurns; split <;> rfl

theorem tickTurns_deck (s : HanabiState) : s.tickTurns.deck = s.deck := by
  unfold HanabiState.tickTurns; split <;> rfl

theorem tickTurns_hands (s : HanabiState) : s.tickTurns.hands = s.hands := by
  unfold HanabiState.tickTurns; split <;> rfl

theorem tickTurns_discard (s : HanabiState) : s.tickTurns.discard_pile = s.discard_pile := by
  unfold HanabiState.tickTurns; split <;> rfl

theorem tickTurns_cur (s : HanabiState) : s.tickTurns.cur_player = s.cur_player := by
  unfold HanabiState.tickTurns; split <;> rfl

theorem tickTurns_next (s : HanabiState) :
    s.tickTurns.next_non_chance_player = s.next_non_chance_player := by
  unfold HanabiState.tickTurns; split <;> rfl

theorem tickTurns_info (s : HanabiState) :
    s.tickTurns.information_tokens = s.information_tokens := by
  unfold HanabiState.tickTurns; split <;> rfl

theorem tickTurns_life (s : HanabiState) : s.tickTurns.life_tokens = s.life_tokens := by
  unfold HanabiState.tickTurns; split <;> rfl

theorem tickTurns_fireworks (s : HanabiState) : s.tickTurns.fireworks = s.fireworks := by
  unfold HanabiState.tickTurns; split <;> rfl

theorem tickTurns_turns (s : HanabiState) :
    s.tickTurns.turns_to_play
      = if s.deck.Empty then s.turns_to_play - 1 else s.turns_to_play := by
  unfold HanabiState.tickTurns; split <;> simp_all

theorem advance_game (s : HanabiState) : s.AdvanceToNextPlayer.game = s.game := by
  unfold HanabiState.AdvanceToNextPlayer; split <;> rfl

theorem advance_deck (s : HanabiState) : s.AdvanceToNextPlayer.deck = s.deck := by
  unfold HanabiState.AdvanceToNextPlayer; split <;> rfl

theorem advance_hands (s : HanabiState) : s.AdvanceToNextPlayer.hands = s.hands := by
  unfold HanabiState.AdvanceToNextPlayer; split <;> rfl

theorem advance_discard (s : HanabiState) :
    s.AdvanceToNextPlayer.discard_pile = s.discard_pile := by
  unfold HanabiState.AdvanceToNextPlayer; split <;> rfl

theorem advance_info (s : HanabiState) :
    s.AdvanceToNextPlayer.information_tokens = s.information_tokens := by
  unfold HanabiState.AdvanceToNextPlayer; split <;> rfl

theorem advance_life (s : HanabiState) :
    s.AdvanceToNextPlayer.life_tokens = s.life_tokens := by
  unfold HanabiState.AdvanceToNextPlayer; split <;> rfl

theorem advance_fireworks (s : HanabiState) :
    s.AdvanceToNextPlayer.fireworks = s.fireworks := by
  unfold HanabiState.AdvanceToNextPlayer; split <;> rfl

theorem advance_turns (s : HanabiState) :
    s.AdvanceToNextPlayer.turns_to_play = s.turns_to_play := by
  unfold HanabiState.AdvanceToNextPlayer; split <;> rfl

end Hanabi

namespace Hanabi

/-! ## Claim C2: terminal status and score -/

/-- The terminal-status policy exactly as the specification words it: life
tokens at zero, then total fireworks progress equal to
`NumColors * NumRanks`, then the countdown at or below zero, else not
finished. -/
def specEndOfGameStatus (s : HanabiState) : HanabiState.EndOfGameType :=
  if s.life_tokens = 0 then .kOutOfLifeTokens
  else if s.fireworks.sum = (s.game.numColors * s.game.numRanks : Int) then .kCompletedFireworks
  else if s.turns_to_play ≤ 0 then .kOutOfCards
  else .kNotFinished

/-- The score exactly as the specification words it: `0` when life tokens are
at zero, otherwise the sum of all fireworks progress counters. -/
def specScore (s : HanabiState) : Int :=
  if s.life_tokens = 0 then 0 else s.fireworks.sum

/-- Claim C2: over the data model's states (life tokens non-negative, each
fireworks counter within `[0, NumRanks]`, one counter per color),
`EndOfGameStatus()` is the spec's cascade — out-of-life-tokens at zero lives,
else completed exactly when the total progress equals `NumColors * NumRanks`,
else out-of-cards when the countdown is at or below zero, else not finished —
and `Score()` is zero at zero lives and the summed fireworks progress
otherwise, independent of the terminal condition. -/
theorem endOfGameStatus_score_spec (s : HanabiState)
    (hlife : 0 ≤ s.life_tokens)
    (hfw : ∀ f ∈ s.fireworks, 0 ≤ f ∧ f ≤ (s.game.numRanks : Int))
    (hlen : s.fireworks.length = s.game.numColors) :
    s.EndOfGameStatus = specEndOfGameStatus s ∧ s.Score = specScore s := by
  have hsum_le : s.fireworks.sum ≤ (s.game.numColors * s.game.numRanks : Int) := by
    have h := List.sum_le_card_nsmul s.fireworks (s.game.numRanks : Int)
      (fun x hx => (hfw x hx).2)
    rw [hlen] at h
    calc s.fireworks.sum ≤ s.game.numColors • (s.game.numRanks : Int) := h
    _ = (s.game.numColors * s.game.numRanks : Int) := by
        simp [nsmul_eq_mul]
  by_cases h0 : s.life_tokens = 0
  · constructor
    · unfold HanabiState.EndOfGameStatus specEndOfGameStatus
      rw [if_pos (by omega), if_pos h0]
    · unfold HanabiState.Score specScore
      rw [if_pos (by omega), if_pos h0]
  · have hpos : 0 < s.life_tokens := lt_of_le_of_ne hlife (Ne.symm h0)
    have hscore : s.Score = s.fireworks.sum := by
      unfold HanabiState.Score; rw [if_neg (by omega)]
    constructor
    · unfold HanabiState.EndOfGameStatus specEndOfGameStatus
      rw [if_neg (by omega), if_neg h0, hscore]
      by_cases hc : s.fireworks.sum = (s.game.numColors * s.game.numRanks : Int)
      · rw [if_pos (by omega), if_pos hc]
      · rw [if_neg (by omega), if_neg hc]
    · unfold HanabiState.Score specScore
      rw [if_neg (by omega), if_neg h0]

/-- Witness for C2 at a concrete state: two colors, two ranks, one life left,
fireworks `[2, 1]`, countdown positive — the status is not-finished and the
score is 3. -/
theorem endOfGameStatus_score_spec_witness :
    let g : HanabiGame :=
      { numPlayers := 2, numColors := 2, numRanks := 2, handSize := 2,
        maxInformationTokens := 8, maxLifeTokens := 3,
        numberCardInstances := fun _ _ => 2, seerObservation := false }
    let s : HanabiState :=
      { game := g, deck := HanabiDeck.init g, hands := [[], []], discard_pile := [],
        cur_player := 0, next_non_chance_player := 1, information_tokens := 8,
        life_tokens := 1, fireworks := [2, 1], turns_to_play := 2 }
    s.EndOfGameStatus = specEndOfGameStatus s ∧ s.Score = specScore s := by
  intro g s
  exact endOfGameStatus_score_spec s (by decide)
    (by intro f hf; fin_cases hf <;> simp) (by decide)

end Hanabi

namespace Hanabi

/-! ## Claim C3: the legality table -/

theorem CardCount_nonneg {d : HanabiDeck} (h : ∀ x ∈ d.card_count, 0 ≤ x) (c r : Int) :
    0 ≤ d.CardCount c r := by
  unfold HanabiDeck.CardCount
  dsimp only
  split
  · exact le_refl 0
  · exact getD_nonneg h _

/-- The legality table exactly as the specification words it, move kind by
move kind. -/
def specMoveIsLegal (s : HanabiState) (move : HanabiMove) : Bool :=
  match move with
  | .deal color rank =>
    decide (s.cur_player = kChancePlayerId) && decide (0 < s.deck.CardCount color rank)
  | .discard i =>
    decide (s.information_tokens < s.game.maxInformationTokens) &&
    decide (i < (s.handOf s.cur_player).length)
  | .play i =>
    decide (i < (s.handOf s.cur_player).length)
  | .revealColor offset color =>
    decide (0 < s.information_tokens) && decide (1 ≤ offset) &&
    decide (offset < (s.game.numPlayers : Int)) &&
    (s.HandByOffset offset).any (fun hc => hc.card.color == color)
  | .revealRank offset rank =>
    decide (0 < s.information_tokens) && decide (1 ≤ offset) &&
    decide (offset < (s.game.numPlayers : Int)) &&
    (s.HandByOffset offset).any (fun hc => hc.card.rank == rank)
  | .invalid => false

/-- Claim C3: on every state whose supply counts are non-negative (the data
model's invariant), `MoveIsLegal` coincides with the spec's table — Deal iff
chance is acting and the identity's remaining count is positive; Discard iff
information tokens are strictly under the cap and the index is in range; Play
iff the index is in range; the two hints iff a token is available, the target
offset lies in `[1, NumPlayers)` and the target hand matches the hinted
attribute; and every other move kind is illegal. -/
theorem moveIsLegal_spec (s : HanabiState) (move : HanabiMove)
    (hc : ∀ x ∈ s.deck.card_count, 0 ≤ x) :
    s.MoveIsLegal move = specMoveIsLegal s move := by
  cases move with
  | deal c r =>
    have h0 : 0 ≤ s.deck.CardCount c r := CardCount_nonneg hc c r
    simp only [HanabiState.MoveIsLegal, specMoveIsLegal]
    by_cases h1 : s.cur_player = kChancePlayerId
    · by_cases h2 : s.deck.CardCount c r = 0
      · simp [h1, h2]
      · have h3 : 0 < s.deck.CardCount c r := lt_of_le_of_ne h0 (Ne.symm h2)
        simp [h1, h2, h3]
    · simp [h1]
  | discard i =>
    simp only [HanabiState.MoveIsLegal, specMoveIsLegal]
    by_cases h1 : s.game.maxInformationTokens ≤ s.information_tokens
    · have h1' : ¬ s.information_tokens < s.game.maxInformationTokens := not_lt.mpr h1
      simp [h1, h1']
    · have h1' : s.information_tokens < s.game.maxInformationTokens := not_le.mp h1
      by_cases h2 : (s.handOf s.cur_player).length ≤ i
      · have h2' : ¬ i < (s.handOf s.cur_player).length := not_lt.mpr h2
        simp [h1, h1', h2, h2']
      · have h2' : i < (s.handOf s.cur_player).length := not_le.mp h2
        simp [h1, h1', h2, h2']
  | play i =>
    simp only [HanabiState.MoveIsLegal, specMoveIsLegal]
    by_cases h2 : (s.handOf s.cur_player).length ≤ i
    · have h2' : ¬ i < (s.handOf s.cur_player).length := not_lt.mpr h2
      simp [h2, h2']
    · have h2' : i < (s.handOf s.cur_player).length := not_le.mp h2
      simp [h2, h2']
  | revealColor offset color =>
    simp only [HanabiState.MoveIsLegal, specMoveIsLegal, HanabiState.HintingIsLegal,
      HanabiMove.TargetOffset]
    by_cases h1 : s.information_tokens ≤ 0
    · have h1' : ¬ 0 < s.information_tokens := not_lt.mpr h1
      simp [h1, h1']
    · have h1' : 0 < s.information_tokens := not_le.mp h1
      by_cases h2 : offset < 1 ∨ (s.game.numPlayers : Int) ≤ offset
      · have hno : ¬ (1 ≤ offset) ∨ ¬ (offset < (s.game.numPlayers : Int)) := by omega
        rcases hno with hno | hno <;> simp [h1, h1', h2, hno]
      · have hno1 : 1 ≤ offset := by omega
        have hno2 : offset < (s.game.numPlayers : Int) := by omega
        rcases Bool.eq_false_or_eq_true
            ((s.HandByOffset offset).any (fun hc => hc.card.color == color)) with hany | hany <;>
          simp [h1, h1', h2, hno1, hno2, hany]
  | revealRank offset rank =>
    simp only [HanabiState.MoveIsLegal, specMoveIsLegal, HanabiState.HintingIsLegal,
      HanabiMove.TargetOffset]
    by_cases h1 : s.information_tokens ≤ 0
    · have h1' : ¬ 0 < s.information_tokens := not_lt.mpr h1
      simp [h1, h1']
    · have h1' : 0 < s.information_tokens := not_le.mp h1
      by_cases h2 : offset < 1 ∨ (s.game.numPlayers : Int) ≤ offset
      · have hno : ¬ (1 ≤ offset) ∨ ¬ (offset < (s.game.numPlayers : Int)) := by omega
        rcases hno with hno | hno <;> simp [h1, h1', h2, hno]
      · have hno1 : 1 ≤ offset := by omega
        have hno2 : offset < (s.game.numPlayers : Int) := by omega
        rcases Bool.eq_false_or_eq_true
            ((s.HandByOffset offset).any (fun hc => hc.card.rank == rank)) with hany | hany <;>
          simp [h1, h1', h2, hno1, hno2, hany]
  | invalid => rfl

end Hanabi

namespace Hanabi

/-- Witness for C3 at a concrete state and move: discarding card 0 is legal
(tokens under the cap, index in range) and both sides of the table agree. -/
theorem moveIsLegal_spec_witness :
    let g : HanabiGame :=
      { numPlayers := 2, numColors := 1, numRanks := 1, handSize := 1,
        maxInformationTokens := 3, maxLifeTokens := 2,
        numberCardInstances := fun _ _ => 2, seerObservation := false }
    let s : HanabiState :=
      { game := g, deck := HanabiDeck.init g,
        hands := [[⟨⟨0, 0⟩, CardKnowledge.fresh g⟩], []], discard_pile := [],
        cur_player := 0, next_non_chance_player := 1, information_tokens := 2,
        life_tokens := 2, fireworks := [0], turns_to_play := 2 }
    (∀ x ∈ s.deck.card_count, 0 ≤ x) ∧
      s.MoveIsLegal (.discard 0) = specMoveIsLegal s (.discard 0) := by
  intro g s
  exact ⟨by decide, moveIsLegal_spec s (.discard 0) (by decide)⟩

/-! ## Claim C9: drawing from the supply never fails -/

theorem getD_pos_lt_length {l : List Int} {n : Nat} (h : l.getD n 0 ≠ 0) : n < l.length := by
  by_contra hn
  rw [List.getD_eq_getElem?_getD, List.getElem?_eq_none (by omega)] at h
  simp at h

theorem DealCard_decrements (d : HanabiDeck) (c r : Int)
    (hpos : 0 < d.CardCount c r) (hc0 : 0 ≤ c) (hr0 : 0 ≤ r)
    (hrR : r < (d.num_ranks : Int)) :
    (d.DealCard c r).1 = ⟨c, r⟩ ∧
    ((d.DealCard c r).2).CardCount c r = d.CardCount c r - 1 ∧
    ((d.DealCard c r).2).Size = d.Size - 1 := by
  have hmul : 0 ≤ c * (d.num_ranks : Int) := mul_nonneg hc0 (by positivity)
  have hidx : ¬ d.CardToIndex c r < 0 := by
    unfold HanabiDeck.CardToIndex
    omega
  have hget : 0 < d.card_count.getD (d.CardToIndex c r).toNat 0 := by
    unfold HanabiDeck.CardCount at hpos
    rwa [if_neg hidx] at hpos
  have hlen : (d.CardToIndex c r).toNat < d.card_count.length :=
    getD_pos_lt_length (by omega)
  have htoNat : (d.CardToIndex c r).toNat = c.toNat * d.num_ranks + r.toNat := by
    have hcast : d.CardToIndex c r = ((c.toNat * d.num_ranks + r.toNat : Nat) : Int) := by
      unfold HanabiDeck.CardToIndex
      push_cast
      rw [Int.toNat_of_nonneg hc0, Int.toNat_of_nonneg hr0]
    rw [hcast]
    omega
  have hdeal : d.DealCard c r =
      (⟨(((d.CardToIndex c r).toNat / d.num_ranks : Nat) : Int),
        (((d.CardToIndex c r).toNat % d.num_ranks : Nat) : Int)⟩,
       { d with card_count := d.card_count.set (d.CardToIndex c r).toNat
                  (d.card_count.getD (d.CardToIndex c r).toNat 0 - 1),
                total_count := d.total_count - 1 }) := by
    unfold HanabiDeck.DealCard
    dsimp only
    rw [if_neg hidx, if_neg (by omega)]
  refine ⟨?_, ?_, ?_⟩
  · rw [hdeal]
    have hdiv : (d.CardToIndex c r).toNat / d.num_ranks = c.toNat := by
      rw [htoNat]
      have e : c.toNat * d.num_ranks + r.toNat = r.toNat + d.num_ranks * c.toNat := by ring
      rw [e, Nat.add_mul_div_left _ _ (by omega), Nat.div_eq_of_lt (by omega)]
      omega
    have hmod : (d.CardToIndex c r).toNat % d.num_ranks = r.toNat := by
      rw [htoNat]
      have e : c.toNat * d.num_ranks + r.toNat = r.toNat + d.num_ranks * c.toNat := by ring
      rw [e, Nat.add_mul_mod_self_left, Nat.mod_eq_of_lt (by omega)]
    dsimp only
    rw [hdiv, hmod]
    show HanabiCard.mk (c.toNat : Int) (r.toNat : Int) = ⟨c, r⟩
    congr 1 <;> omega
  · rw [hdeal]
    unfold HanabiDeck.CardCount HanabiDeck.CardToIndex
    unfold HanabiDeck.CardToIndex at hidx hlen
    dsimp only
    rw [if_neg hidx, if_neg hidx,
      getD_eq_of_getElem? 0 (List.getElem?_set_self hlen)]
  · rw [hdeal]
    rfl

/-- Claim C9: supply draws never fail.  `DealCard(rng)` on an empty supply
returns the invalid card and leaves the supply untouched; `DealCard(color,
rank)` on an identity with zero remaining count returns the invalid card and
leaves the supply untouched; in all other cases the draw returns the drawn
identity and decrements that identity's remaining count and the total
remaining size by exactly one. -/
theorem dealCard_spec (d : HanabiDeck) (index : Nat) (c r : Int) :
    (d.Empty = true → d.DealCardRandom index = some (HanabiCard.invalid, d)) ∧
    (d.CardCount c r = 0 → d.DealCard c r = (HanabiCard.invalid, d)) ∧
    (0 < d.CardCount c r → 0 ≤ c → 0 ≤ r → r < (d.num_ranks : Int) →
      (d.DealCard c r).1 = ⟨c, r⟩ ∧
      ((d.DealCard c r).2).CardCount c r = d.CardCount c r - 1 ∧
      ((d.DealCard c r).2).Size = d.Size - 1) ∧
    (d.Empty = false → 0 < d.card_count.getD index 0 →
      ∃ deck1, d.DealCardRandom index
          = some (⟨((index / d.num_ranks : Nat) : Int), ((index % d.num_ranks : Nat) : Int)⟩, deck1) ∧
        deck1.CardCount ((index / d.num_ranks : Nat) : Int) ((index % d.num_ranks : Nat) : Int)
          = d.CardCount ((index / d.num_ranks : Nat) : Int) ((index % d.num_ranks : Nat) : Int) - 1 ∧
        deck1.Size = d.Size - 1) := by
  have hidxid : ∀ R : Nat, ((index / R : Nat) : Int) * (R : Int) + ((index % R : Nat) : Int)
      = (index : Int) := by
    intro R
    rw [← Nat.cast_mul, ← Nat.cast_add, Nat.div_add_mod']
  refine ⟨?_, ?_, ?_, ?_⟩
  · intro he
    unfold HanabiDeck.DealCardRandom
    rw [if_pos he]
  · intro hz
    unfold HanabiDeck.CardCount at hz
    unfold HanabiDeck.DealCard
    dsimp only at hz ⊢
    split
    · rfl
    · rw [if_pos]
      rw [if_neg (by assumption)] at hz
      omega
  · intro hpos hc0 hr0 hrR
    exact DealCard_decrements d c r hpos hc0 hr0 hrR
  · intro hne hpos
    have hlen : index < d.card_count.length := getD_pos_lt_length (by omega)
    unfold HanabiDeck.DealCardRandom
    rw [hne]
    rw [if_neg (by simp), if_neg (by omega)]
    refine ⟨_, rfl, ?_, rfl⟩
    unfold HanabiDeck.CardCount HanabiDeck.CardToIndex
    dsimp only
    rw [hidxid d.num_ranks, if_neg (by omega), if_neg (by omega)]
    have hton : ((index : Int)).toNat = index := by omega
    rw [hton, getD_eq_of_getElem? 0 (List.getElem?_set_self hlen)]

/-- Witness for C9 on a concrete two-identity supply `[2, 1]`: drawing
identity (0, 1) returns that card and leaves counts `[2, 0]`, total 2. -/
theorem dealCard_spec_witness :
    let d : HanabiDeck := { card_count := [2, 1], total_count := 3, num_ranks := 2 }
    0 < d.CardCount 0 1 ∧
      (d.DealCard 0 1).1 = ⟨0, 1⟩ ∧
      ((d.DealCard 0 1).2).CardCount 0 1 = d.CardCount 0 1 - 1 ∧
      ((d.DealCard 0 1).2).Size = d.Size - 1 := by
  intro d
  refine ⟨by decide, ?_⟩
  exact (dealCard_spec d 0 0 1).2.2.1 (by decide) (by decide) (by decide) (by decide)

end Hanabi

namespace Hanabi

/-! ## Inversion lemmas for move application -/

theorem ApplyMove_inv {s s' : HanabiState} {m : HanabiMove} (h : s.ApplyMove m = some s') :
    s.MoveIsLegal m = true ∧
    ∃ s1, s.tickTurns.stepMove m = some s1 ∧ s' = s1.AdvanceToNextPlayer := by
  unfold HanabiState.ApplyMove at h
  split at h
  · exact Option.noConfusion h
  · rename_i hleg
    rw [Option.map_eq_some'] at h
    obtain ⟨s1, h1, h2⟩ := h
    exact ⟨by simpa using hleg, s1, h1, h2.symm⟩

theorem applyDeal_inv {s s1 : HanabiState} {c r : Int} (h : s.applyDeal c r = some s1) :
    ∃ p, s.hands.findIdx? (fun hand => decide (hand.length < s.game.handSize)) = some p ∧
      ((s.deck.DealCard c r).1).IsValid = true ∧
      s1 = { s with deck := (s.deck.DealCard c r).2,
                    hands := s.hands.set p ((s.hands.getD p []) ++
                      [⟨(s.deck.DealCard c r).1, HanabiState.dealKnowledge s.game c r⟩]) } := by
  unfold HanabiState.applyDeal at h
  split at h
  · exact Option.noConfusion h
  · rename_i p hp
    dsimp only at h
    split at h
    · exact Option.noConfusion h
    · rename_i hvalid
      refine ⟨p, hp, by simpa using hvalid, (Option.some_inj.mp h).symm⟩

theorem applyDiscard_inv {s s1 : HanabiState} {i : Nat} (h : s.applyDiscard i = some s1) :
    ∃ hc, (s.handOf s.cur_player)[i]? = some hc ∧
      s1 = { s with
        information_tokens :=
          if s.information_tokens < s.game.maxInformationTokens
          then s.information_tokens + 1 else s.information_tokens,
        hands := s.hands.set s.cur_player.toNat ((s.handOf s.cur_player).eraseIdx i),
        discard_pile := s.discard_pile ++ [hc.card] } := by
  unfold HanabiState.applyDiscard at h
  dsimp only at h
  split at h
  · exact Option.noConfusion h
  · rename_i hc hhc
    refine ⟨hc, hhc, ?_⟩
    rw [(Option.some_inj.mp h).symm]
    unfold HanabiState.IncrementInformationTokens
    split <;> rfl

theorem applyPlay_inv {s s1 : HanabiState} {i : Nat} (h : s.applyPlay i = some s1) :
    ∃ hc, (s.handOf s.cur_player)[i]? = some hc ∧
      ((s.CardPlayableOnFireworks hc.card.color hc.card.rank = true ∧
        s1 = { s with
          fireworks := s.fireworks.set hc.card.color.toNat
            (s.fireworks.getD hc.card.color.toNat 0 + 1),
          information_tokens :=
            if s.fireworks.getD hc.card.color.toNat 0 + 1 = (s.game.numRanks : Int) ∧
               s.information_tokens < s.game.maxInformationTokens
            then s.information_tokens + 1 else s.information_tokens,
          hands := s.hands.set s.cur_player.toNat ((s.handOf s.cur_player).eraseIdx i) }) ∨
       (s.CardPlayableOnFireworks hc.card.color hc.card.rank = false ∧
        0 < s.life_tokens ∧
        s1 = { s with
          life_tokens := s.life_tokens - 1,
          hands := s.hands.set s.cur_player.toNat ((s.handOf s.cur_player).eraseIdx i),
          discard_pile := s.discard_pile ++ [hc.card] })) := by
  unfold HanabiState.applyPlay at h
  dsimp only at h
  split at h
  · exact Option.noConfusion h
  · rename_i hc hhc
    rw [Option.map_eq_some'] at h
    obtain ⟨r, hr, hs1⟩ := h
    refine ⟨hc, hhc, ?_⟩
    unfold HanabiState.AddToFireworks at hr
    split at hr
    · rename_i hplay
      left
      refine ⟨hplay, ?_⟩
      dsimp only at hr
      split at hr
      · rename_i hfw
        rw [Option.some_inj] at hr
        subst hr
        rw [hs1.symm]
        unfold HanabiState.IncrementInformationTokens
        dsimp only
        split
        · rename_i hlt
          simp only [if_pos (And.intro hfw hlt)]
          rfl
        · rename_i hlt
          simp only [if_neg (fun hcon => hlt (And.right hcon))]
          rfl
      · rename_i hfw
        rw [Option.some_inj] at hr
        subst hr
        rw [hs1.symm]
        simp only [if_neg (fun hcon => hfw (And.left hcon))]
        rfl
    · rename_i hplay
      right
      unfold HanabiState.DecrementLifeTokens at hr
      split at hr
      · exact Option.noConfusion hr
      · rename_i hlife
        rw [Option.map_eq_some'] at hr
        obtain ⟨s2, hs2, hrr⟩ := hr
        rw [Option.some_inj] at hs2
        refine ⟨by simpa using hplay, by omega, ?_⟩
        rw [hs1.symm, hrr.symm, hs2.symm]
        rfl

theorem applyRevealColor_inv {s s1 : HanabiState} {off c : Int}
    (h : s.applyRevealColor off c = some s1) :
    0 < s.information_tokens ∧ ∃ t, HanabiState.targetIndex s off = some t ∧
      s1 = { s with information_tokens := s.information_tokens - 1,
                    hands := s.hands.set t ((s.hands.getD t []).map (HanabiState.revealColorSlot c)) } := by
  unfold HanabiState.applyRevealColor HanabiState.DecrementInformationTokens at h
  split at h
  · exact Option.noConfusion h
  · rename_i hinfo
    rw [Option.some_bind] at h
    split at h
    · exact Option.noConfusion h
    · rename_i t ht
      exact ⟨by omega, t, ht, (Option.some_inj.mp h).symm⟩

theorem applyRevealRank_inv {s s1 : HanabiState} {off r : Int}
    (h : s.applyRevealRank off r = some s1) :
    0 < s.information_tokens ∧ ∃ t, HanabiState.targetIndex s off = some t ∧
      s1 = { s with information_tokens := s.information_tokens - 1,
                    hands := s.hands.set t ((s.hands.getD t []).map (HanabiState.revealRankSlot r)) } := by
  unfold HanabiState.applyRevealRank HanabiState.DecrementInformationTokens at h
  split at h
  · exact Option.noConfusion h
  · rename_i hinfo
    rw [Option.some_bind] at h
    split at h
    · exact Option.noConfusion h
    · rename_i t ht
      exact ⟨by omega, t, ht, (Option.some_inj.mp h).symm⟩

end Hanabi

namespace Hanabi

/-! ## Field preservation across the mutation step -/

theorem stepMove_game {s s1 : HanabiState} {m : HanabiMove} (h : s.stepMove m = some s1) :
    s1.game = s.game := by
  cases m with
  | deal c r => obtain ⟨p, _, _, rfl⟩ := applyDeal_inv h; rfl
  | discard i => obtain ⟨hc, _, rfl⟩ := applyDiscard_inv h; rfl
  | play i =>
    obtain ⟨hc, _, hcase⟩ := applyPlay_inv h
    rcases hcase with ⟨_, rfl⟩ | ⟨_, _, rfl⟩ <;> rfl
  | revealColor off c => obtain ⟨_, t, _, rfl⟩ := applyRevealColor_inv h; rfl
  | revealRank off r => obtain ⟨_, t, _, rfl⟩ := applyRevealRank_inv h; rfl
  | invalid => exact Option.noConfusion h

theorem stepMove_next {s s1 : HanabiState} {m : HanabiMove} (h : s.stepMove m = some s1) :
    s1.next_non_chance_player = s.next_non_chance_player := by
  cases m with
  | deal c r => obtain ⟨p, _, _, rfl⟩ := applyDeal_inv h; rfl
  | discard i => obtain ⟨hc, _, rfl⟩ := applyDiscard_inv h; rfl
  | play i =>
    obtain ⟨hc, _, hcase⟩ := applyPlay_inv h
    rcases hcase with ⟨_, rfl⟩ | ⟨_, _, rfl⟩ <;> rfl
  | revealColor off c => obtain ⟨_, t, _, rfl⟩ := applyRevealColor_inv h; rfl
  | revealRank off r => obtain ⟨_, t, _, rfl⟩ := applyRevealRank_inv h; rfl
  | invalid => exact Option.noConfusion h

theorem stepMove_hands_length {s s1 : HanabiState} {m : HanabiMove}
    (h : s.stepMove m = some s1) : s1.hands.length = s.hands.length := by
  cases m with
  | deal c r => obtain ⟨p, _, _, rfl⟩ := applyDeal_inv h; simp
  | discard i => obtain ⟨hc, _, rfl⟩ := applyDiscard_inv h; simp
  | play i =>
    obtain ⟨hc, _, hcase⟩ := applyPlay_inv h
    rcases hcase with ⟨_, rfl⟩ | ⟨_, _, rfl⟩ <;> simp
  | revealColor off c => obtain ⟨_, t, _, rfl⟩ := applyRevealColor_inv h; simp
  | revealRank off r => obtain ⟨_, t, _, rfl⟩ := applyRevealRank_inv h; simp
  | invalid => exact Option.noConfusion h

theorem stepMove_turns {s s1 : HanabiState} {m : HanabiMove} (h : s.stepMove m = some s1) :
    s1.turns_to_play = s.turns_to_play := by
  cases m with
  | deal c r => obtain ⟨p, _, _, rfl⟩ := applyDeal_inv h; rfl
  | discard i => obtain ⟨hc, _, rfl⟩ := applyDiscard_inv h; rfl
  | play i =>
    obtain ⟨hc, _, hcase⟩ := applyPlay_inv h
    rcases hcase with ⟨_, rfl⟩ | ⟨_, _, rfl⟩ <;> rfl
  | revealColor off c => obtain ⟨_, t, _, rfl⟩ := applyRevealColor_inv h; rfl
  | revealRank off r => obtain ⟨_, t, _, rfl⟩ := applyRevealRank_inv h; rfl
  | invalid => exact Option.noConfusion h

/-! ## Claim C4: actor advance after every applied move -/

theorem playerToDeal_nonneg_iff (s : HanabiState) :
    0 ≤ s.PlayerToDeal ↔ ∃ hand ∈ s.hands, hand.length < s.game.handSize := by
  unfold HanabiState.PlayerToDeal
  cases hf : s.hands.findIdx? (fun hand => decide (hand.length < s.game.handSize)) with
  | none =>
    rw [List.findIdx?_eq_none_iff] at hf
    simp only
    constructor
    · intro h; omega
    · rintro ⟨hand, hm, hlt⟩
      have := hf hand hm
      simp_all
  | some i =>
    rw [List.findIdx?_eq_some_iff_getElem] at hf
    obtain ⟨hlen, hp, _⟩ := hf
    simp only
    constructor
    · intro _
      exact ⟨s.hands[i], List.getElem_mem hlen, by simpa using hp⟩
    · intro _
      positivity

/-- Claim C4: after every applied move, the new current actor is the chance
actor exactly when the supply is non-empty and some hand is below the
configured full hand size; otherwise the new current actor is the stored
next-non-chance player and the stored pointer advances round-robin (old value
plus one, modulo the player count).  The stored pointer is assumed in range
`[0, NumPlayers)` and one hand per player, as the data model guarantees. -/
theorem advance_after_apply (s s' : HanabiState) (m : HanabiMove)
    (h : s.ApplyMove m = some s')
    (hn0 : 0 ≤ s.next_non_chance_player)
    (hhands : s.hands.length = s.game.numPlayers) :
    (s'.cur_player = kChancePlayerId ↔
      (¬ s'.deck.Empty = true ∧ ∃ hand ∈ s'.hands, hand.length < s.game.handSize)) ∧
    (s'.cur_player ≠ kChancePlayerId →
      s'.cur_player = s.next_non_chance_player ∧
      s'.next_non_chance_player
        = (s.next_non_chance_player + 1) % (s.game.numPlayers : Int)) ∧
    (s'.cur_player = kChancePlayerId →
      s'.next_non_chance_player = s.next_non_chance_player) := by
  obtain ⟨hleg, s1, hstep, rfl⟩ := ApplyMove_inv h
  have hg : s1.game = s.game := by rw [stepMove_game hstep, tickTurns_game]
  have hnx : s1.next_non_chance_player = s.next_non_chance_player := by
    rw [stepMove_next hstep, tickTurns_next]
  have hlen : s1.hands.length = s.game.numPlayers := by
    rw [stepMove_hands_length hstep, tickTurns_hands, hhands]
  have hshort : (0 ≤ s1.PlayerToDeal) ↔
      ∃ hand ∈ s1.hands, hand.length < s.game.handSize := by
    rw [playerToDeal_nonneg_iff, hg]
  unfold HanabiState.AdvanceToNextPlayer
  split
  · rename_i hcond
    obtain ⟨he, hptd⟩ := hcond
    refine ⟨?_, ?_, ?_⟩
    · exact Iff.intro (fun _ => ⟨he, hshort.mp hptd⟩) (fun _ => rfl)
    · intro hne
      exact absurd rfl hne
    · intro _
      simpa using hnx
  · rename_i hcond
    rw [not_and_or, not_not] at hcond
    have hcur : s1.next_non_chance_player ≠ kChancePlayerId := by
      rw [hnx]
      unfold kChancePlayerId
      omega
    refine ⟨?_, ?_, ?_⟩
    · simp only
      constructor
      · intro hk
        exact absurd hk hcur
      · rintro ⟨hne, hand, hm, hlt⟩
        rcases hcond with hcond | hcond
        · exact absurd hcond hne
        · have : 0 ≤ s1.PlayerToDeal := hshort.mpr ⟨hand, hm, hlt⟩
          omega
    · intro _
      dsimp only
      rw [hnx, hlen]
      exact ⟨rfl, rfl⟩
    · intro hk
      exact absurd hk hcur

/-- A tiny concrete configuration used by the witnesses: two players, one
color, one rank, hand size one. -/
def witnessGame : HanabiGame :=
  { numPlayers := 2, numColors := 1, numRanks := 1, handSize := 1,
    maxInformationTokens := 3, maxLifeTokens := 2,
    numberCardInstances := fun _ _ => 2, seerObservation := false }

/-- A concrete mid-game state for the C4 witness: both hands full, supply
non-empty, player 1 to act. -/
def c4Before : HanabiState :=
  { game := witnessGame, deck := { card_count := [1], total_count := 1, num_ranks := 1 },
    hands := [[⟨⟨0, 0⟩, CardKnowledge.fresh witnessGame⟩],
              [⟨⟨0, 0⟩, CardKnowledge.fresh witnessGame⟩]],
    discard_pile := [], cur_player := 1, next_non_chance_player := 0,
    information_tokens := 2, life_tokens := 2, fireworks := [0], turns_to_play := 2 }

/-- The state reached from `c4Before` by `RevealColor(1, 0)`. -/
def c4After : HanabiState :=
  { game := witnessGame, deck := { card_count := [1], total_count := 1, num_ranks := 1 },
    hands := [[⟨⟨0, 0⟩, ⟨1, 1, some 0, none⟩⟩],
              [⟨⟨0, 0⟩, CardKnowledge.fresh witnessGame⟩]],
    discard_pile := [], cur_player := 0, next_non_chance_player := 1,
    information_tokens := 1, life_tokens := 2, fireworks := [0], turns_to_play := 2 }

/-- Witness for C4: applying the reveal leaves both hands full, so the next
actor is the stored next player 0 and the stored pointer advances to 1. -/
theorem advance_after_apply_witness :
    c4Before.ApplyMove (.revealColor 1 0) = some c4After ∧
      ((c4After.cur_player = kChancePlayerId ↔
        (¬ c4After.deck.Empty = true ∧
          ∃ hand ∈ c4After.hands, hand.length < c4Before.game.handSize)) ∧
      (c4After.cur_player ≠ kChancePlayerId →
        c4After.cur_player = c4Before.next_non_chance_player ∧
        c4After.next_non_chance_player
          = (c4Before.next_non_chance_player + 1) % (c4Before.game.numPlayers : Int)) ∧
      (c4After.cur_player = kChancePlayerId →
        c4After.next_non_chance_player = c4Before.next_non_chance_player)) :=
  ⟨rfl, advance_after_apply c4Before c4After (.revealColor 1 0) rfl (by decide) (by decide)⟩

end Hanabi

namespace Hanabi

/-! ## Claim C7: the end-game countdown -/

/-- The supply's representation invariant: the cached total is the sum of the
per-identity counts, and no count is negative. -/
def DeckWF (d : HanabiDeck) : Prop :=
  d.total_count = d.card_count.sum ∧ ∀ x ∈ d.card_count, 0 ≤ x

/-- Whether a move is a Deal. -/
def HanabiMove.isDeal : HanabiMove → Bool
  | .deal _ _ => true
  | _ => false

theorem legal_deal_inv {s : HanabiState} {c r : Int}
    (h : s.MoveIsLegal (.deal c r) = true) :
    s.cur_player = kChancePlayerId ∧ s.deck.CardCount c r ≠ 0 := by
  constructor
  · by_contra hcur
    simp [HanabiState.MoveIsLegal, hcur] at h
  · intro hz
    simp [HanabiState.MoveIsLegal, hz, ite_self] at h

theorem deck_not_empty_of_cardCount_ne_zero {d : HanabiDeck} (hwf : DeckWF d) {c r : Int}
    (h : d.CardCount c r ≠ 0) : d.Empty = false := by
  obtain ⟨htot, hnn⟩ := hwf
  unfold HanabiDeck.CardCount at h
  dsimp only at h
  split at h
  · exact absurd rfl h
  · have hlen := getD_pos_lt_length h
    have hmem : d.card_count.getD ((d.CardToIndex c r).toNat) 0 ∈ d.card_count := by
      rw [List.getD_eq_getElem?_getD, List.getElem?_eq_getElem hlen]
      exact List.getElem_mem hlen
    have hle : d.card_count.getD ((d.CardToIndex c r).toNat) 0 ≤ d.card_count.sum :=
      List.single_le_sum hnn _ hmem
    have hpos : 0 ≤ d.card_count.getD ((d.CardToIndex c r).toNat) 0 := hnn _ hmem
    unfold HanabiDeck.Empty
    simp only [decide_eq_false_iff_not]
    omega

/-- Claim C7: for every legally applied move, a non-Deal move applied while
the supply is empty decrements the turns-remaining countdown by exactly one,
and in every other case (supply non-empty, or a Deal move) the countdown is
unchanged.  The supply's representation invariant is assumed. -/
theorem turns_countdown (s s' : HanabiState) (m : HanabiMove)
    (h : s.ApplyMove m = some s') (hwf : DeckWF s.deck) :
    (m.isDeal = false → s.deck.Empty = true → s'.turns_to_play = s.turns_to_play - 1) ∧
    (m.isDeal = true ∨ s.deck.Empty = false → s'.turns_to_play = s.turns_to_play) := by
  obtain ⟨hleg, s1, hstep, rfl⟩ := ApplyMove_inv h
  have ht : s1.AdvanceToNextPlayer.turns_to_play
      = if s.deck.Empty then s.turns_to_play - 1 else s.turns_to_play := by
    rw [advance_turns, stepMove_turns hstep, tickTurns_turns]
  constructor
  · intro _ hemp
    rw [ht, if_pos (by simpa using hemp)]
  · intro hcase
    rcases hcase with hdeal | hne
    · cases m with
      | deal c r =>
        have hne := deck_not_empty_of_cardCount_ne_zero hwf (legal_deal_inv hleg).2
        rw [ht, if_neg (by simp [hne])]
      | discard i => simp [HanabiMove.isDeal] at hdeal
      | play i => simp [HanabiMove.isDeal] at hdeal
      | revealColor off c => simp [HanabiMove.isDeal] at hdeal
      | revealRank off r => simp [HanabiMove.isDeal] at hdeal
      | invalid => simp [HanabiMove.isDeal] at hdeal
    · rw [ht, if_neg (by simp [hne])]

/-- Witness for C7: in the concrete C4 trace the supply is non-empty, so the
reveal leaves the countdown unchanged at 2. -/
theorem turns_countdown_witness :
    DeckWF c4Before.deck ∧ c4Before.deck.Empty = false ∧
      c4After.turns_to_play = c4Before.turns_to_play :=
  ⟨by constructor <;> decide, by decide,
   (turns_countdown c4Before c4After (.revealColor 1 0) rfl
      (by constructor <;> decide)).2 (Or.inr (by decide))⟩

end Hanabi

namespace Hanabi

/-! ## Claim C1: effects of a legal Play -/

theorem tickTurns_handOf (s : HanabiState) (p : Int) :
    s.tickTurns.handOf p = s.handOf p := by
  unfold HanabiState.handOf
  rw [tickTurns_hands]

/-- Claim C1: for every state and legal `Play(i)` applied by the current
actor, the indexed card is removed from the hand; it scores exactly when its
rank equals the fireworks progress for its (in-range) color; a scoring play
increments that color's fireworks counter, does not touch the discard pile or
the life tokens, and recovers exactly one information token iff the increment
completes the color's full rank range while tokens are under the cap; a
non-scoring play spends exactly one life token, leaves fireworks and
information tokens unchanged, and appends the card to the discard pile. -/
theorem play_move_effects (s s' : HanabiState) (i : Nat) (hc : HandCard)
    (h : s.ApplyMove (.play i) = some s')
    (hslot : (s.handOf s.cur_player)[i]? = some hc)
    (hcol0 : 0 ≤ hc.card.color) (hcol1 : hc.card.color < (s.game.numColors : Int)) :
    s'.hands = s.hands.set s.cur_player.toNat ((s.handOf s.cur_player).eraseIdx i) ∧
    (s.CardPlayableOnFireworks hc.card.color hc.card.rank = true ↔
      hc.card.rank = s.fireworks.getD hc.card.color.toNat 0) ∧
    (s.CardPlayableOnFireworks hc.card.color hc.card.rank = true →
      s'.fireworks = s.fireworks.set hc.card.color.toNat
        (s.fireworks.getD hc.card.color.toNat 0 + 1) ∧
      s'.discard_pile = s.discard_pile ∧
      s'.life_tokens = s.life_tokens ∧
      s'.information_tokens =
        (if s.fireworks.getD hc.card.color.toNat 0 + 1 = (s.game.numRanks : Int) ∧
            s.information_tokens < s.game.maxInformationTokens
         then s.information_tokens + 1 else s.information_tokens)) ∧
    (s.CardPlayableOnFireworks hc.card.color hc.card.rank = false →
      s'.life_tokens = s.life_tokens - 1 ∧
      s'.fireworks = s.fireworks ∧
      s'.discard_pile = s.discard_pile ++ [hc.card] ∧
      s'.information_tokens = s.information_tokens) := by
  obtain ⟨hleg, s1, hstep, rfl⟩ := ApplyMove_inv h
  have hstep' : s.tickTurns.applyPlay i = some s1 := hstep
  obtain ⟨hc2, hslot2, hcase⟩ := applyPlay_inv hstep'
  rw [tickTurns_cur, tickTurns_handOf, hslot, Option.some_inj] at hslot2
  subst hslot2
  have hplay_eq : s.tickTurns.CardPlayableOnFireworks hc.card.color hc.card.rank
      = s.CardPlayableOnFireworks hc.card.color hc.card.rank := by
    unfold HanabiState.CardPlayableOnFireworks
    rw [tickTurns_fireworks, tickTurns_game]
  have hpiff : s.CardPlayableOnFireworks hc.card.color hc.card.rank = true ↔
      hc.card.rank = s.fireworks.getD hc.card.color.toNat 0 := by
    unfold HanabiState.CardPlayableOnFireworks
    rw [if_neg (by omega)]
    simp
  rcases hcase with ⟨hp, rfl⟩ | ⟨hp, hlife, rfl⟩
  · rw [hplay_eq] at hp
    refine ⟨?_, hpiff, ?_, ?_⟩
    · rw [advance_hands]
      dsimp only
      rw [tickTurns_hands, tickTurns_cur, tickTurns_handOf]
    · intro _
      refine ⟨?_, ?_, ?_, ?_⟩
      · rw [advance_fireworks]
        dsimp only
        rw [tickTurns_fireworks]
      · rw [advance_discard]
        dsimp only
        rw [tickTurns_discard]
      · rw [advance_life]
        dsimp only
        rw [tickTurns_life]
      · rw [advance_info]
        dsimp only
        rw [tickTurns_fireworks, tickTurns_game, tickTurns_info]
    · intro hfalse
      rw [hfalse] at hp
      exact Bool.noConfusion hp
  · rw [hplay_eq] at hp
    refine ⟨?_, hpiff, ?_, ?_⟩
    · rw [advance_hands]
      dsimp only
      rw [tickTurns_hands, tickTurns_cur, tickTurns_handOf]
    · intro htrue
      rw [htrue] at hp
      exact Bool.noConfusion hp
    · intro _
      refine ⟨?_, ?_, ?_, ?_⟩
      · rw [advance_life]
        dsimp only
        rw [tickTurns_life]
      · rw [advance_fireworks]
        dsimp only
        rw [tickTurns_fireworks]
      · rw [advance_discard]
        dsimp only
        rw [tickTurns_discard]
      · rw [advance_info]
        dsimp only
        rw [tickTurns_info]

/-- The state for the C1 witness: empty supply, player 0 holds the playable
card (0, 0). -/
def c1Before : HanabiState :=
  { game := witnessGame, deck := { card_count := [0], total_count := 0, num_ranks := 1 },
    hands := [[⟨⟨0, 0⟩, CardKnowledge.fresh witnessGame⟩],
              [⟨⟨0, 0⟩, CardKnowledge.fresh witnessGame⟩]],
    discard_pile := [], cur_player := 0, next_non_chance_player := 1,
    information_tokens := 2, life_tokens := 2, fireworks := [0], turns_to_play := 2 }

/-- The state reached from `c1Before` by `Play(0)`: the card scores, completes
color 0 and recovers an information token. -/
def c1After : HanabiState :=
  { game := witnessGame, deck := { card_count := [0], total_count := 0, num_ranks := 1 },
    hands := [[], [⟨⟨0, 0⟩, CardKnowledge.fresh witnessGame⟩]],
    discard_pile := [], cur_player := 1, next_non_chance_player := 0,
    information_tokens := 3, life_tokens := 2, fireworks := [1], turns_to_play := 1 }

/-- Witness for C1: the concrete scoring play — card removed, fireworks
`[0] → [1]`, nothing discarded, a bonus information token recovered. -/
theorem play_move_effects_witness :
    c1Before.ApplyMove (.play 0) = some c1After ∧
    (c1Before.handOf c1Before.cur_player)[0]?
      = some ⟨⟨0, 0⟩, CardKnowledge.fresh witnessGame⟩ ∧
    c1After.hands = c1Before.hands.set 0 [] ∧
    c1After.fireworks = [1] ∧ c1After.discard_pile = [] ∧
    c1After.information_tokens = 3 := by
  have h := play_move_effects c1Before c1After 0
    ⟨⟨0, 0⟩, CardKnowledge.fresh witnessGame⟩ rfl rfl (by decide) (by decide)
  obtain ⟨hhands, hiff, hscored, _⟩ := h
  obtain ⟨hfw, hdp, _, hinfo⟩ := hscored (by decide)
  exact ⟨rfl, rfl, by simpa using hhands, by simpa using hfw, by simpa using hdp,
         by rw [hinfo]; decide⟩

end Hanabi

namespace Hanabi

/-! ## Claim C10: the SetHandCard determinization setter -/

theorem cardToIndex_nonneg {d : HanabiDeck} {c r : Int} (hc0 : 0 ≤ c) (hr0 : 0 ≤ r) :
    ¬ d.CardToIndex c r < 0 := by
  unfold HanabiDeck.CardToIndex
  have hmul : 0 ≤ c * (d.num_ranks : Int) := mul_nonneg hc0 (by positivity)
  omega

theorem cardToIndex_toNat {d : HanabiDeck} {c r : Int} (hc0 : 0 ≤ c) (hr0 : 0 ≤ r) :
    (d.CardToIndex c r).toNat = c.toNat * d.num_ranks + r.toNat := by
  have hcast : d.CardToIndex c r = ((c.toNat * d.num_ranks + r.toNat : Nat) : Int) := by
    unfold HanabiDeck.CardToIndex
    push_cast
    rw [Int.toNat_of_nonneg hc0, Int.toNat_of_nonneg hr0]
  rw [hcast]
  omega

theorem index_lt_of_lt {c r cc rr : Nat} (hc : c < cc) (hr : r < rr) :
    c * rr + r < cc * rr := by
  calc c * rr + r < c * rr + rr := by omega
  _ = (c + 1) * rr := by ring
  _ ≤ cc * rr := Nat.mul_le_mul_right rr hc

theorem AddCard_cardCount_self (d : HanabiDeck) (c r : Int)
    (hc0 : 0 ≤ c) (hr0 : 0 ≤ r)
    (hlen : (d.CardToIndex c r).toNat < d.card_count.length) :
    (d.AddCard c r).CardCount c r = d.CardCount c r + 1 := by
  have hidx := cardToIndex_nonneg (d := d) hc0 hr0
  unfold HanabiDeck.CardToIndex at hidx hlen
  unfold HanabiDeck.AddCard HanabiDeck.CardCount HanabiDeck.CardToIndex
  dsimp only
  rw [if_neg hidx, if_neg hidx,
    getD_eq_of_getElem? 0 (List.getElem?_set_self hlen), if_neg hidx]

/-- Claim C10: a `SetHandCard` call meeting its preconditions (valid player,
index in range, valid replacement card, state shaped per the data model)
always succeeds: the old card's identity is first restored to the supply (its
count goes up by one), then the requested identity is drawn — its count and
the total drop by one when it was positive, and the supply is left exactly at
the restored state when it was zero (silent oversubscription) — and in all
cases the hand slot becomes the requested card with fresh knowledge, with no
other state touched. -/
theorem setHandCard_spec (s : HanabiState) (player : Int) (ci : Nat) (card : HanabiCard)
    (old : HandCard)
    (hp0 : 0 ≤ player) (hp1 : player < (s.hands.length : Int))
    (hslot : (s.hands.getD player.toNat [])[ci]? = some old)
    (hv : card.IsValid = true) (hov : old.card.IsValid = true)
    (hshape : s.deck.card_count.length = s.game.numColors * s.game.numRanks)
    (hnum : s.deck.num_ranks = s.game.numRanks)
    (holdc : old.card.color < (s.game.numColors : Int))
    (holdr : old.card.rank < (s.game.numRanks : Int))
    (hcardr : card.rank < (s.game.numRanks : Int)) :
    ∃ s', s.SetHandCard player ci card = some s' ∧
      ((s.deck.AddCard old.card.color old.card.rank).CardCount old.card.color old.card.rank
         = s.deck.CardCount old.card.color old.card.rank + 1 ∧
       s'.deck = ((s.deck.AddCard old.card.color old.card.rank).DealCard
                    card.color card.rank).2 ∧
       (0 < (s.deck.AddCard old.card.color old.card.rank).CardCount card.color card.rank →
         s'.deck.CardCount card.color card.rank
           = (s.deck.AddCard old.card.color old.card.rank).CardCount card.color card.rank - 1 ∧
         s'.deck.total_count
           = (s.deck.AddCard old.card.color old.card.rank).total_count - 1) ∧
       ((s.deck.AddCard old.card.color old.card.rank).CardCount card.color card.rank = 0 →
         s'.deck = s.deck.AddCard old.card.color old.card.rank) ∧
       s'.hands = s.hands.set player.toNat
         ((s.hands.getD player.toNat []).set ci ⟨card, CardKnowledge.fresh s.game⟩) ∧
       s'.discard_pile = s.discard_pile ∧ s'.information_tokens = s.information_tokens ∧
       s'.life_tokens = s.life_tokens ∧ s'.fireworks = s.fireworks ∧
       s'.cur_player = s.cur_player ∧ s'.turns_to_play = s.turns_to_play) := by
  have hov' : 0 ≤ old.card.color ∧ 0 ≤ old.card.rank := by
    unfold HanabiCard.IsValid at hov
    simpa using hov
  have hv' : 0 ≤ card.color ∧ 0 ≤ card.rank := by
    unfold HanabiCard.IsValid at hv
    simpa using hv
  have hres : s.SetHandCard player ci card = some
      { s with deck := ((s.deck.AddCard old.card.color old.card.rank).DealCard
                          card.color card.rank).2,
               hands := s.hands.set player.toNat
                 ((s.hands.getD player.toNat []).set ci
                   ⟨card, CardKnowledge.fresh s.game⟩) } := by
    unfold HanabiState.SetHandCard
    rw [if_neg (by omega)]
    dsimp only
    rw [hslot]
    dsimp only
    rw [if_neg (by simp [hv]), if_pos hov]
  refine ⟨_, hres, ?_, rfl, ?_, ?_, rfl, rfl, rfl, rfl, rfl, rfl, rfl⟩
  · apply AddCard_cardCount_self _ _ _ hov'.1 hov'.2
    rw [cardToIndex_toNat hov'.1 hov'.2, hshape, hnum]
    apply index_lt_of_lt
    · omega
    · omega
  · intro hpos
    have h3 := DealCard_decrements (s.deck.AddCard old.card.color old.card.rank)
        card.color card.rank hpos hv'.1 hv'.2 ?_
    · exact ⟨h3.2.1, h3.2.2⟩
    · have : (s.deck.AddCard old.card.color old.card.rank).num_ranks = s.deck.num_ranks := by
        unfold HanabiDeck.AddCard
        dsimp only
        split <;> rfl
      rw [this, hnum]
      exact hcardr
  · intro hz
    unfold HanabiDeck.DealCard
    dsimp only
    split
    · rfl
    · rename_i hneg
      rw [if_pos ?_]
      unfold HanabiDeck.CardCount at hz
      dsimp only at hz
      rw [if_neg hneg] at hz
      omega

/-- Witness for C10: in the concrete C4 state, replacing player 0's card
(0, 0) by another copy of (0, 0) restores one count and takes one back,
leaving the supply unchanged overall, and refreshes the slot's knowledge. -/
theorem setHandCard_spec_witness :
    ∃ s', c4Before.SetHandCard 0 0 ⟨0, 0⟩ = some s' ∧
      s'.deck.CardCount 0 0 = 1 ∧
      s'.hands = c4Before.hands.set 0 [⟨⟨0, 0⟩, CardKnowledge.fresh witnessGame⟩] ∧
      s'.discard_pile = c4Before.discard_pile := by
  obtain ⟨s', hs', hrest, hdeck, hpos, hzero, hhands, hdp, _⟩ :=
    setHandCard_spec c4Before 0 0 ⟨0, 0⟩ ⟨⟨0, 0⟩, CardKnowledge.fresh witnessGame⟩
      (by decide) (by decide) rfl (by decide) (by decide) (by decide) (by decide)
      (by decide) (by decide) (by decide)
  refine ⟨s', hs', ?_, by simpa using hhands, hdp⟩
  have h1 := hpos (by decide)
  rw [h1.1]
  decide

end Hanabi

namespace Hanabi

/-! ## The reachable-state invariant (claims C5, C6, C8) -/

/-- Occurrences of identity (c, r) in a list of cards. -/
def occList (c r : Int) (cards : List HanabiCard) : Int :=
  (cards.countP (fun x => x.color == c && x.rank == r) : Int)

/-- Occurrences of identity (c, r) in one hand. -/
def occHand (c r : Int) (hand : List HandCard) : Int :=
  (hand.countP (fun hc => hc.card.color == c && hc.card.rank == r) : Int)

/-- Occurrences of identity (c, r) across all hands. -/
def handsOcc (hands : List (List HandCard)) (c r : Int) : Int :=
  (hands.map (fun hand => occHand c r hand)).sum

/-- Well-formedness of a game configuration: positive dimensions, non-negative
token caps and multiplicities. -/
def GameWF (g : HanabiGame) : Prop :=
  0 < g.numPlayers ∧ 0 < g.numColors ∧ 0 < g.numRanks ∧
  0 ≤ g.maxInformationTokens ∧ 0 ≤ g.maxLifeTokens ∧
  ∀ c, c < g.numColors → ∀ r, r < g.numRanks → 0 ≤ g.numberCardInstances c r

/-- The state invariant, expressed over the components that move application
touches: deck shape and representation invariant, per-player hands of in-range
cards, bounded fireworks, bounded tokens, and per-identity conservation — the
supply count plus the cards in hands, in the discard pile and consumed into
fireworks equals the configured multiplicity. -/
def InvC (g : HanabiGame) (d : HanabiDeck) (hands : List (List HandCard))
    (discard : List HanabiCard) (fw : List Int) (info life : Int) : Prop :=
  GameWF g ∧
  d.num_ranks = g.numRanks ∧
  d.card_count.length = g.numColors * g.numRanks ∧
  DeckWF d ∧
  hands.length = g.numPlayers ∧
  fw.length = g.numColors ∧
  (∀ f ∈ fw, 0 ≤ f ∧ f ≤ (g.numRanks : Int)) ∧
  (∀ hand ∈ hands, ∀ hc ∈ hand,
    0 ≤ hc.card.color ∧ hc.card.color < (g.numColors : Int) ∧
    0 ≤ hc.card.rank ∧ hc.card.rank < (g.numRanks : Int)) ∧
  0 ≤ info ∧ info ≤ g.maxInformationTokens ∧
  0 ≤ life ∧ life ≤ g.maxLifeTokens ∧
  (∀ c r : Int, 0 ≤ c → c < (g.numColors : Int) → 0 ≤ r → r < (g.numRanks : Int) →
    d.CardCount c r + handsOcc hands c r + occList c r discard +
      (if r < fw.getD c.toNat 0 then 1 else 0) = g.numberCardInstances c.toNat r.toNat)

/-- The invariant of a game state. -/
def Inv (s : HanabiState) : Prop :=
  InvC s.game s.deck s.hands s.discard_pile s.fireworks
    s.information_tokens s.life_tokens

/-- The states reachable from a fresh construction by legal move
applications.  The start player covers both constructor branches (a valid
argument, or the externally sampled valid index). -/
inductive Reachable : HanabiState → Prop where
  | init (g : HanabiGame) (start : Int) (hg : GameWF g)
      (h0 : 0 ≤ start) (h1 : start < (g.numPlayers : Int)) :
      Reachable (HanabiState.init g start)
  | step (s s' : HanabiState) (m : HanabiMove) (hs : Reachable s)
      (h : s.ApplyMove m = some s') : Reachable s'

theorem getD_range_map (f : Nat → Int) {n i : Nat} (h : i < n) :
    ((List.range n).map f).getD i 0 = f i := by
  rw [List.getD_eq_getElem?_getD, List.getElem?_map, List.getElem?_range h]
  rfl

theorem init_deck_fields (g : HanabiGame) (hg : GameWF g) :
    (HanabiDeck.init g).num_ranks = g.numRanks ∧
    (HanabiDeck.init g).card_count.length = g.numColors * g.numRanks ∧
    DeckWF (HanabiDeck.init g) := by
  obtain ⟨hp, hcpos, hrpos, hinfo, hlife, hmult⟩ := hg
  unfold HanabiDeck.init DeckWF
  refine ⟨rfl, by simp, rfl, ?_⟩
  intro x hx
  dsimp only at hx
  rw [List.mem_map] at hx
  obtain ⟨i, hi, rfl⟩ := hx
  rw [List.mem_range] at hi
  refine hmult _ ?_ _ (Nat.mod_lt i hrpos)
  rw [Nat.div_lt_iff_lt_mul hrpos]
  omega

theorem init_deck_cardCount (g : HanabiGame) (hrpos : 0 < g.numRanks) (c r : Int)
    (hc0 : 0 ≤ c) (hc1 : c < (g.numColors : Int)) (hr0 : 0 ≤ r)
    (hr1 : r < (g.numRanks : Int)) :
    (HanabiDeck.init g).CardCount c r = g.numberCardInstances c.toNat r.toNat := by
  have htn := cardToIndex_toNat (d := HanabiDeck.init g) hc0 hr0
  have hnr : (HanabiDeck.init g).num_ranks = g.numRanks := rfl
  rw [hnr] at htn
  unfold HanabiDeck.CardCount
  dsimp only
  rw [if_neg (cardToIndex_nonneg hc0 hr0), htn]
  show ((List.range (g.numColors * g.numRanks)).map
      (fun i => g.numberCardInstances (i / g.numRanks) (i % g.numRanks))).getD
      (c.toNat * g.numRanks + r.toNat) 0 = _
  rw [getD_range_map _ (index_lt_of_lt (by omega) (by omega))]
  have hdiv : (c.toNat * g.numRanks + r.toNat) / g.numRanks = c.toNat := by
    have e : c.toNat * g.numRanks + r.toNat = r.toNat + g.numRanks * c.toNat := by ring
    rw [e, Nat.add_mul_div_left _ _ hrpos, Nat.div_eq_of_lt (by omega)]
    omega
  have hmod : (c.toNat * g.numRanks + r.toNat) % g.numRanks = r.toNat := by
    have e : c.toNat * g.numRanks + r.toNat = r.toNat + g.numRanks * c.toNat := by ring
    rw [e, Nat.add_mul_mod_self_left, Nat.mod_eq_of_lt (by omega)]
  rw [hdiv, hmod]

theorem inv_init (g : HanabiGame) (start : Int) (hg : GameWF g) :
    Inv (HanabiState.init g start) := by
  obtain ⟨hdn, hdl, hdwf⟩ := init_deck_fields g hg
  obtain ⟨hp, hcpos, hrpos, hinfo, hlife, hmult⟩ := hg
  unfold Inv InvC HanabiState.init
  dsimp only
  refine ⟨⟨hp, hcpos, hrpos, hinfo, hlife, hmult⟩, hdn, hdl, hdwf,
    by simp, by simp, ?_, ?_, ?_, le_refl _, ?_, le_refl _, ?_⟩
  · intro f hf
    rw [List.eq_of_mem_replicate hf]
    exact ⟨le_refl 0, by positivity⟩
  · intro hand hhand hc hhc
    rw [List.eq_of_mem_replicate hhand] at hhc
    exact absurd hhc (List.not_mem_nil hc)
  · exact hinfo
  · exact hlife
  · intro c r hc0 hc1 hr0 hr1
    rw [init_deck_cardCount g hrpos c r hc0 hc1 hr0 hr1]
    have hho : handsOcc (List.replicate g.numPlayers []) c r = 0 := by
      unfold handsOcc
      rw [List.map_replicate]
      simp [occHand]
    have hfc : (if r < (List.replicate g.numColors (0 : Int)).getD c.toNat 0 then (1 : Int)
        else 0) = 0 := by
      rw [List.getD_eq_getElem?_getD]
      rcases Nat.lt_or_ge c.toNat g.numColors with hlt | hge
      · rw [List.getElem?_replicate_of_lt hlt]
        simp only [Option.getD_some]
        rw [if_neg (by omega)]
      · rw [List.getElem?_eq_none (by simpa using hge)]
        simp only [Option.getD_none]
        rw [if_neg (by omega)]
    rw [hho, hfc]
    simp [occList]

end Hanabi

namespace Hanabi

theorem inv_tickTurns {s : HanabiState} (h : Inv s) : Inv s.tickTurns := by
  unfold Inv
  rw [tickTurns_game, tickTurns_deck, tickTurns_hands, tickTurns_discard,
    tickTurns_fireworks, tickTurns_info, tickTurns_life]
  exact h

theorem inv_advance {s : HanabiState} (h : Inv s) : Inv s.AdvanceToNextPlayer := by
  unfold Inv
  rw [advance_game, advance_deck, advance_hands, advance_discard,
    advance_fireworks, advance_info, advance_life]
  exact h

theorem tickTurns_MoveIsLegal (s : HanabiState) (m : HanabiMove) :
    s.tickTurns.MoveIsLegal m = s.MoveIsLegal m := by
  unfold HanabiState.MoveIsLegal HanabiState.HintingIsLegal HanabiState.handOf
    HanabiState.HandByOffset
  rw [tickTurns_cur, tickTurns_deck, tickTurns_hands, tickTurns_info, tickTurns_game]

theorem sum_map_set {α : Type*} (f : α → Int) (l : List α) (n : Nat) (x a : α)
    (h : l[n]? = some a) :
    ((l.set n x).map f).sum = (l.map f).sum - f a + f x := by
  induction l generalizing n with
  | nil => simp at h
  | cons y t ih =>
    cases n with
    | zero =>
      simp only [List.getElem?_cons_zero, Option.some_inj] at h
      subst h
      simp only [List.set_cons_zero, List.map_cons, List.sum_cons]
      ring
    | succ m =>
      simp only [List.getElem?_cons_succ] at h
      simp only [List.set_cons_succ, List.map_cons, List.sum_cons]
      rw [ih m h]
      ring

theorem handOf_facts {t : HanabiState} {i : Nat} {hc : HandCard}
    (hslot : (t.handOf t.cur_player)[i]? = some hc) :
    ¬ t.cur_player < 0 ∧ t.cur_player.toNat < t.hands.length ∧
    t.handOf t.cur_player = t.hands.getD t.cur_player.toNat [] ∧
    t.hands[t.cur_player.toNat]? = some (t.hands.getD t.cur_player.toNat []) ∧
    hc ∈ t.hands.getD t.cur_player.toNat [] := by
  have h0 : ¬ t.cur_player < 0 := by
    intro hlt
    unfold HanabiState.handOf at hslot
    rw [if_pos hlt] at hslot
    simp at hslot
  have hh : t.handOf t.cur_player = t.hands.getD t.cur_player.toNat [] := by
    unfold HanabiState.handOf
    rw [if_neg h0]
  rw [hh] at hslot
  have hlen : t.cur_player.toNat < t.hands.length := by
    by_contra hge
    have hnil : t.hands.getD t.cur_player.toNat [] = [] := by
      rw [List.getD_eq_getElem?_getD, List.getElem?_eq_none (by omega)]
      rfl
    rw [hnil] at hslot
    simp at hslot
  have hgd : t.hands[t.cur_player.toNat]? = some (t.hands.getD t.cur_player.toNat []) := by
    rw [List.getD_eq_getElem?_getD, List.getElem?_eq_getElem hlen]
    rfl
  exact ⟨h0, hlen, hh, hgd, List.getElem?_mem hslot⟩

theorem getD_mem_of_lt {α : Type*} {l : List α} {n : Nat} (d : α) (h : n < l.length) :
    l.getD n d ∈ l := by
  rw [List.getD_eq_getElem?_getD, List.getElem?_eq_getElem h]
  exact List.getElem_mem h

end Hanabi

namespace Hanabi

theorem inv_applyDiscard {t t1 : HanabiState} {i : Nat}
    (hinv : Inv t) (hstep : t.applyDiscard i = some t1) : Inv t1 := by
  obtain ⟨hc, hslot, rfl⟩ := applyDiscard_inv hstep
  obtain ⟨h0, hlen, hh, hgd, hmem⟩ := handOf_facts hslot
  rw [hh] at hslot
  unfold Inv InvC at hinv
  obtain ⟨hg, hdn, hdl, hdwf, hhl, hfl, hfb, hrange, hi0, hi1, hl0, hl1, heq⟩ := hinv
  unfold Inv InvC
  dsimp only
  refine ⟨hg, hdn, hdl, hdwf, by simpa using hhl, hfl, hfb, ?_, ?_, ?_, hl0, hl1, ?_⟩
  · intro hand hhand hc2 hhc2
    rcases List.mem_or_eq_of_mem_set hhand with hmem2 | rfl
    · exact hrange hand hmem2 hc2 hhc2
    · rw [hh] at hhc2
      exact hrange _ (getD_mem_of_lt [] hlen) hc2 (List.mem_of_mem_eraseIdx hhc2)
  · split <;> omega
  · split <;> omega
  · intro c0 r0 hc00 hc01 hr00 hr01
    have hbase := heq c0 r0 hc00 hc01 hr00 hr01
    have hho : handsOcc (t.hands.set t.cur_player.toNat
        ((t.handOf t.cur_player).eraseIdx i)) c0 r0
        = handsOcc t.hands c0 r0 - occHand c0 r0 (t.hands.getD t.cur_player.toNat [])
          + occHand c0 r0 ((t.handOf t.cur_player).eraseIdx i) := by
      unfold handsOcc
      exact sum_map_set _ _ _ _ _ hgd
    have hocc : occHand c0 r0 (t.hands.getD t.cur_player.toNat [])
        = occHand c0 r0 ((t.hands.getD t.cur_player.toNat []).eraseIdx i)
          + (if hc.card.color == c0 && hc.card.rank == r0 then (1 : Int) else 0) := by
      unfold occHand
      rw [countP_eraseIdx (fun hcx => hcx.card.color == c0 && hcx.card.rank == r0) _ i hc hslot]
      split <;> push_cast <;> ring
    have hdocc : occList c0 r0 (t.discard_pile ++ [hc.card])
        = occList c0 r0 t.discard_pile
          + (if hc.card.color == c0 && hc.card.rank == r0 then (1 : Int) else 0) := by
      unfold occList
      rw [List.countP_append]
      have hone : List.countP (fun x => x.color == c0 && x.rank == r0) [hc.card]
          = if hc.card.color == c0 && hc.card.rank == r0 then 1 else 0 := by
        simp [List.countP_cons]
      rw [hone]
      split <;> push_cast <;> ring
    rw [hho, hocc, hdocc, hh]
    omega

end Hanabi

namespace Hanabi

theorem revealColorSlot_card (c : Int) (hc : HandCard) :
    (HanabiState.revealColorSlot c hc).card = hc.card := by
  unfold HanabiState.revealColorSlot
  split <;> rfl

theorem revealRankSlot_card (r : Int) (hc : HandCard) :
    (HanabiState.revealRankSlot r hc).card = hc.card := by
  unfold HanabiState.revealRankSlot
  split <;> rfl

theorem occHand_map_cards {f : HandCard → HandCard}
    (hf : ∀ hc, (f hc).card = hc.card) (c0 r0 : Int) (hand : List HandCard) :
    occHand c0 r0 (hand.map f) = occHand c0 r0 hand := by
  unfold occHand
  rw [List.countP_map]
  congr 1
  apply List.countP_congr
  intro hc _
  simp [Function.comp, hf hc]

theorem handsOcc_set_map {hands : List (List HandCard)} {f : HandCard → HandCard}
    (hf : ∀ hc, (f hc).card = hc.card) (c0 r0 : Int) (tIdx : Nat) :
    handsOcc (hands.set tIdx ((hands.getD tIdx []).map f)) c0 r0
      = handsOcc hands c0 r0 := by
  rcases Nat.lt_or_ge tIdx hands.length with hlt | hge
  · have hgd : hands[tIdx]? = some (hands.getD tIdx []) := by
      rw [List.getD_eq_getElem?_getD, List.getElem?_eq_getElem hlt]
      rfl
    unfold handsOcc
    rw [sum_map_set _ _ _ _ _ hgd, occHand_map_cards hf]
    ring
  · rw [List.set_eq_of_length_le hge]

theorem inv_revealUpdate {t : HanabiState} {f : HandCard → HandCard}
    (hf : ∀ hc, (f hc).card = hc.card)
    (hinv : Inv t) (hpos : 0 < t.information_tokens) (tIdx : Nat) :
    Inv { t with information_tokens := t.information_tokens - 1,
                 hands := t.hands.set tIdx ((t.hands.getD tIdx []).map f) } := by
  unfold Inv InvC at hinv
  obtain ⟨hg, hdn, hdl, hdwf, hhl, hfl, hfb, hrange, hi0, hi1, hl0, hl1, heq⟩ := hinv
  unfold Inv InvC
  dsimp only
  refine ⟨hg, hdn, hdl, hdwf, by simpa using hhl, hfl, hfb, ?_, by omega, by omega,
    hl0, hl1, ?_⟩
  · intro hand hhand hc2 hhc2
    rcases List.mem_or_eq_of_mem_set hhand with hmem2 | rfl
    · exact hrange hand hmem2 hc2 hhc2
    · rw [List.mem_map] at hhc2
      obtain ⟨hc0, hhc0, rfl⟩ := hhc2
      rcases Nat.lt_or_ge tIdx t.hands.length with hlt | hge
      · rw [hf hc0]
        exact hrange _ (getD_mem_of_lt [] hlt) hc0 hhc0
      · have hnil : t.hands.getD tIdx [] = [] := by
          rw [List.getD_eq_getElem?_getD, List.getElem?_eq_none (by omega)]
          rfl
        rw [hnil] at hhc0
        exact absurd hhc0 (List.not_mem_nil hc0)
  · intro c0 r0 hc00 hc01 hr00 hr01
    rw [handsOcc_set_map hf]
    exact heq c0 r0 hc00 hc01 hr00 hr01

theorem inv_applyRevealColor {t t1 : HanabiState} {off c : Int}
    (hinv : Inv t) (hstep : t.applyRevealColor off c = some t1) : Inv t1 := by
  obtain ⟨hpos, tIdx, ht, rfl⟩ := applyRevealColor_inv hstep
  exact inv_revealUpdate (revealColorSlot_card c) hinv hpos tIdx

theorem inv_applyRevealRank {t t1 : HanabiState} {off r : Int}
    (hinv : Inv t) (hstep : t.applyRevealRank off r = some t1) : Inv t1 := by
  obtain ⟨hpos, tIdx, ht, rfl⟩ := applyRevealRank_inv hstep
  exact inv_revealUpdate (revealRankSlot_card r) hinv hpos tIdx

end Hanabi

namespace Hanabi

theorem inv_applyPlay {t t1 : HanabiState} {i : Nat}
    (hinv : Inv t) (hstep : t.applyPlay i = some t1) : Inv t1 := by
  obtain ⟨hc, hslot, hcase⟩ := applyPlay_inv hstep
  obtain ⟨h0, hlen, hh, hgd, hmem⟩ := handOf_facts hslot
  rw [hh] at hslot
  unfold Inv InvC at hinv
  obtain ⟨hg, hdn, hdl, hdwf, hhl, hfl, hfb, hrange, hi0, hi1, hl0, hl1, heq⟩ := hinv
  obtain ⟨hcc0, hcc1, hcr0, hcr1⟩ := hrange _ (getD_mem_of_lt [] hlen) hc hmem
  rcases hcase with ⟨hp, rfl⟩ | ⟨hp, hlife, rfl⟩
  · -- the play scored
    have hfweq : hc.card.rank = t.fireworks.getD hc.card.color.toNat 0 := by
      unfold HanabiState.CardPlayableOnFireworks at hp
      rw [if_neg (by omega)] at hp
      simpa using hp
    have hcollen : hc.card.color.toNat < t.fireworks.length := by
      rw [hfl]
      omega
    unfold Inv InvC
    dsimp only
    refine ⟨hg, hdn, hdl, hdwf, by simpa using hhl, by simpa using hfl, ?_, ?_, ?_, ?_,
      hl0, hl1, ?_⟩
    · intro f hf2
      rcases List.mem_or_eq_of_mem_set hf2 with hm | rfl
      · exact hfb f hm
      · constructor
        · have := hfb _ (getD_mem_of_lt 0 hcollen)
          omega
        · rw [← hfweq]
          omega
    · intro hand hhand hc2 hhc2
      rcases List.mem_or_eq_of_mem_set hhand with hmem2 | rfl
      · exact hrange hand hmem2 hc2 hhc2
      · rw [hh] at hhc2
        exact hrange _ (getD_mem_of_lt [] hlen) hc2 (List.mem_of_mem_eraseIdx hhc2)
    · split <;> omega
    · split <;> omega
    · intro c0 r0 hc00 hc01 hr00 hr01
      have hbase := heq c0 r0 hc00 hc01 hr00 hr01
      have hho : handsOcc (t.hands.set t.cur_player.toNat
          ((t.handOf t.cur_player).eraseIdx i)) c0 r0
          = handsOcc t.hands c0 r0 - occHand c0 r0 (t.hands.getD t.cur_player.toNat [])
            + occHand c0 r0 ((t.handOf t.cur_player).eraseIdx i) := by
        unfold handsOcc
        exact sum_map_set _ _ _ _ _ hgd
      have hocc : occHand c0 r0 (t.hands.getD t.cur_player.toNat [])
          = occHand c0 r0 ((t.hands.getD t.cur_player.toNat []).eraseIdx i)
            + (if hc.card.color == c0 && hc.card.rank == r0 then (1 : Int) else 0) := by
        unfold occHand
        rw [countP_eraseIdx (fun hcx => hcx.card.color == c0 && hcx.card.rank == r0)
          _ i hc hslot]
        split <;> push_cast <;> ring
      rw [hho, hh]
      by_cases hceq : hc.card.color = c0
      · have hcollen2 : c0.toNat < t.fireworks.length := by
          rw [← hceq]
          exact hcollen
        have hgds : (t.fireworks.set hc.card.color.toNat
            (t.fireworks.getD hc.card.color.toNat 0 + 1)).getD c0.toNat 0
            = t.fireworks.getD c0.toNat 0 + 1 := by
          rw [hceq]
          exact getD_eq_of_getElem? 0 (List.getElem?_set_self hcollen2)
        have hfweq2 : hc.card.rank = t.fireworks.getD c0.toNat 0 := by
          rw [hfweq, hceq]
        have hX : (if hc.card.color == c0 && hc.card.rank == r0 then (1 : Int) else 0)
            = if r0 = t.fireworks.getD c0.toNat 0 then (1 : Int) else 0 := by
          rw [hceq, hfweq2]
          by_cases hr : r0 = t.fireworks.getD c0.toNat 0
          · rw [if_pos hr,
              if_pos (show _ by rw [Bool.and_eq_true, beq_iff_eq, beq_iff_eq]; exact ⟨rfl, hr.symm⟩)]
          · rw [if_neg hr,
              if_neg (show _ by rw [Bool.and_eq_true, beq_iff_eq, beq_iff_eq]; rintro ⟨-, h2⟩; exact hr h2.symm)]
        have hind : (if r0 < t.fireworks.getD c0.toNat 0 + 1 then (1 : Int) else 0)
            = (if r0 < t.fireworks.getD c0.toNat 0 then (1 : Int) else 0)
              + (if r0 = t.fireworks.getD c0.toNat 0 then (1 : Int) else 0) := by
          split_ifs <;> omega
        rw [hgds, hind]
        rw [hX] at hocc
        omega
      · have hne : hc.card.color.toNat ≠ c0.toNat := by
          intro hto
          apply hceq
          omega
        have hgdne : (t.fireworks.set hc.card.color.toNat
            (t.fireworks.getD hc.card.color.toNat 0 + 1)).getD c0.toNat 0
            = t.fireworks.getD c0.toNat 0 := by
          rw [List.getD_eq_getElem?_getD, List.getElem?_set_ne hne,
            ← List.getD_eq_getElem?_getD]
        have hX0 : (if hc.card.color == c0 && hc.card.rank == r0 then (1 : Int) else 0)
            = 0 := by
          rw [if_neg
            (show _ by rw [Bool.and_eq_true, beq_iff_eq, beq_iff_eq]; rintro ⟨hcol, -⟩; exact hceq hcol)]
        rw [hgdne]
        rw [hX0] at hocc
        omega
  · -- the play did not score
    unfold Inv InvC
    dsimp only
    refine ⟨hg, hdn, hdl, hdwf, by simpa using hhl, hfl, hfb, ?_, hi0, hi1,
      by omega, by omega, ?_⟩
    · intro hand hhand hc2 hhc2
      rcases List.mem_or_eq_of_mem_set hhand with hmem2 | rfl
      · exact hrange hand hmem2 hc2 hhc2
      · rw [hh] at hhc2
        exact hrange _ (getD_mem_of_lt [] hlen) hc2 (List.mem_of_mem_eraseIdx hhc2)
    · intro c0 r0 hc00 hc01 hr00 hr01
      have hbase := heq c0 r0 hc00 hc01 hr00 hr01
      have hho : handsOcc (t.hands.set t.cur_player.toNat
          ((t.handOf t.cur_player).eraseIdx i)) c0 r0
          = handsOcc t.hands c0 r0 - occHand c0 r0 (t.hands.getD t.cur_player.toNat [])
            + occHand c0 r0 ((t.handOf t.cur_player).eraseIdx i) := by
        unfold handsOcc
        exact sum_map_set _ _ _ _ _ hgd
      have hocc : occHand c0 r0 (t.hands.getD t.cur_player.toNat [])
          = occHand c0 r0 ((t.hands.getD t.cur_player.toNat []).eraseIdx i)
            + (if hc.card.color == c0 && hc.card.rank == r0 then (1 : Int) else 0) := by
        unfold occHand
        rw [countP_eraseIdx (fun hcx => hcx.card.color == c0 && hcx.card.rank == r0)
          _ i hc hslot]
        split <;> push_cast <;> ring
      have hdocc : occList c0 r0 (t.discard_pile ++ [hc.card])
          = occList c0 r0 t.discard_pile
            + (if hc.card.color == c0 && hc.card.rank == r0 then (1 : Int) else 0) := by
        unfold occList
        rw [List.countP_append]
        have hone : List.countP (fun x => x.color == c0 && x.rank == r0) [hc.card]
            = if hc.card.color == c0 && hc.card.rank == r0 then 1 else 0 := by
          simp [List.countP_cons]
        rw [hone]
        split <;> push_cast <;> ring
      rw [hho, hocc, hdocc, hh]
      omega

end Hanabi

namespace Hanabi

theorem DealCard_pos_eq (d : HanabiDeck) (c r : Int)
    (hidx : ¬ d.CardToIndex c r < 0)
    (hget : 0 < d.card_count.getD (d.CardToIndex c r).toNat 0) :
    d.DealCard c r =
      (⟨(((d.CardToIndex c r).toNat / d.num_ranks : Nat) : Int),
        (((d.CardToIndex c r).toNat % d.num_ranks : Nat) : Int)⟩,
       { d with card_count := d.card_count.set (d.CardToIndex c r).toNat
                  (d.card_count.getD (d.CardToIndex c r).toNat 0 - 1),
                total_count := d.total_count - 1 }) := by
  unfold HanabiDeck.DealCard
  dsimp only
  rw [if_neg hidx, if_neg (by omega)]

theorem occHand_append_single (c0 r0 : Int) (h : List HandCard) (slot : HandCard) :
    occHand c0 r0 (h ++ [slot])
      = occHand c0 r0 h
        + (if slot.card.color == c0 && slot.card.rank == r0 then (1 : Int) else 0) := by
  unfold occHand
  rw [List.countP_append]
  have hone : List.countP (fun hcx => hcx.card.color == c0 && hcx.card.rank == r0) [slot]
      = if slot.card.color == c0 && slot.card.rank == r0 then 1 else 0 := by
    simp [List.countP_cons]
  rw [hone]
  split <;> push_cast <;> ring

theorem inv_applyDeal {t t1 : HanabiState} {c r : Int}
    (hinv : Inv t) (hcount : t.deck.CardCount c r ≠ 0)
    (hstep : t.applyDeal c r = some t1) : Inv t1 := by
  obtain ⟨p, hp, hvalid, rfl⟩ := applyDeal_inv hstep
  unfold Inv InvC at hinv
  obtain ⟨hg, hdn, hdl, hdwf, hhl, hfl, hfb, hrange, hi0, hi1, hl0, hl1, heq⟩ := hinv
  have hrpos : 0 < t.game.numRanks := hg.2.2.1
  obtain ⟨htot, hnn⟩ := hdwf
  have hidx : ¬ t.deck.CardToIndex c r < 0 := by
    intro hneg
    apply hcount
    unfold HanabiDeck.CardCount
    dsimp only
    rw [if_pos hneg]
  have hget0 : t.deck.card_count.getD (t.deck.CardToIndex c r).toNat 0 ≠ 0 := by
    intro hzz
    apply hcount
    unfold HanabiDeck.CardCount
    dsimp only
    rw [if_neg hidx]
    exact hzz
  have hgetpos : 0 < t.deck.card_count.getD (t.deck.CardToIndex c r).toNat 0 := by
    have := getD_nonneg hnn (t.deck.CardToIndex c r).toNat
    omega
  have hlenidx : (t.deck.CardToIndex c r).toNat < t.deck.card_count.length :=
    getD_pos_lt_length hget0
  have hRpos : 0 < t.deck.num_ranks := by
    rw [hdn]
    exact hrpos
  have hdeal := DealCard_pos_eq t.deck c r hidx hgetpos
  rw [hdeal]
  dsimp only
  have hplen : p < t.hands.length := by
    rw [List.findIdx?_eq_some_iff_getElem] at hp
    exact hp.1
  have hpgd : t.hands[p]? = some (t.hands.getD p []) := by
    rw [List.getD_eq_getElem?_getD, List.getElem?_eq_getElem hplen]
    rfl
  have hcard_color : (t.deck.CardToIndex c r).toNat / t.deck.num_ranks
      < t.game.numColors := by
    rw [Nat.div_lt_iff_lt_mul hRpos]
    calc (t.deck.CardToIndex c r).toNat < t.deck.card_count.length := hlenidx
    _ = t.game.numColors * t.game.numRanks := hdl
    _ = t.game.numColors * t.deck.num_ranks := by rw [hdn]
  have hcard_rank : (t.deck.CardToIndex c r).toNat % t.deck.num_ranks
      < t.game.numRanks := by
    have := Nat.mod_lt (t.deck.CardToIndex c r).toNat hRpos
    omega
  unfold Inv InvC
  dsimp only
  refine ⟨hg, hdn, by simpa using hdl, ⟨?_, ?_⟩, by simpa using hhl, hfl, hfb,
    ?_, hi0, hi1, hl0, hl1, ?_⟩
  · rw [sum_set_int _ _ _ hlenidx, htot]
    ring
  · intro x hx
    rcases List.mem_or_eq_of_mem_set hx with hm | rfl
    · exact hnn x hm
    · omega
  · intro hand hhand hc2 hhc2
    rcases List.mem_or_eq_of_mem_set hhand with hmem2 | rfl
    · exact hrange hand hmem2 hc2 hhc2
    · rw [List.mem_append] at hhc2
      rcases hhc2 with hold | hnew
      · exact hrange _ (getD_mem_of_lt [] hplen) hc2 hold
      · rw [List.mem_singleton] at hnew
        subst hnew
        dsimp only
        refine ⟨by positivity, by exact_mod_cast hcard_color,
          by positivity, by exact_mod_cast hcard_rank⟩
  · intro c0 r0 hc00 hc01 hr00 hr01
    have hbase := heq c0 r0 hc00 hc01 hr00 hr01
    have hidx0 : ¬ t.deck.CardToIndex c0 r0 < 0 := cardToIndex_nonneg hc00 hr00
    have hidx0n : (t.deck.CardToIndex c0 r0).toNat
        = c0.toNat * t.deck.num_ranks + r0.toNat := cardToIndex_toNat hc00 hr00
    have hho := sum_map_set (fun hand => occHand c0 r0 hand) t.hands p
      ((t.hands.getD p []) ++
        [⟨⟨(((t.deck.CardToIndex c r).toNat / t.deck.num_ranks : Nat) : Int),
           (((t.deck.CardToIndex c r).toNat % t.deck.num_ranks : Nat) : Int)⟩,
          HanabiState.dealKnowledge t.game c r⟩])
      (t.hands.getD p []) hpgd
    have happ := occHand_append_single c0 r0 (t.hands.getD p [])
      ⟨⟨(((t.deck.CardToIndex c r).toNat / t.deck.num_ranks : Nat) : Int),
        (((t.deck.CardToIndex c r).toNat % t.deck.num_ranks : Nat) : Int)⟩,
       HanabiState.dealKnowledge t.game c r⟩
    -- the appended card matches (c0, r0) exactly when the drawn slot is theirs
    have hmatch : (if (((((t.deck.CardToIndex c r).toNat / t.deck.num_ranks : Nat) : Int) == c0) &&
          ((((t.deck.CardToIndex c r).toNat % t.deck.num_ranks : Nat) : Int) == r0))
          then (1 : Int) else 0)
        = if (t.deck.CardToIndex c0 r0).toNat = (t.deck.CardToIndex c r).toNat
          then (1 : Int) else 0 := by
      by_cases hii : (t.deck.CardToIndex c0 r0).toNat = (t.deck.CardToIndex c r).toNat
      · rw [if_pos hii, if_pos ?_]
        rw [← hii, hidx0n]
        have hr0R : r0.toNat < t.deck.num_ranks := by
          rw [hdn]
          omega
        have hdiv : (c0.toNat * t.deck.num_ranks + r0.toNat) / t.deck.num_ranks
            = c0.toNat := by
          have e : c0.toNat * t.deck.num_ranks + r0.toNat
              = r0.toNat + t.deck.num_ranks * c0.toNat := by ring
          rw [e, Nat.add_mul_div_left _ _ hRpos, Nat.div_eq_of_lt hr0R]
          omega
        have hmod : (c0.toNat * t.deck.num_ranks + r0.toNat) % t.deck.num_ranks
            = r0.toNat := by
          have e : c0.toNat * t.deck.num_ranks + r0.toNat
              = r0.toNat + t.deck.num_ranks * c0.toNat := by ring
          rw [e, Nat.add_mul_mod_self_left, Nat.mod_eq_of_lt hr0R]
        rw [hdiv, hmod, Bool.and_eq_true, beq_iff_eq, beq_iff_eq]
        constructor
        · omega
        · omega
      · rw [if_neg hii, if_neg ?_]
        rw [Bool.and_eq_true, beq_iff_eq, beq_iff_eq]
        rintro ⟨hcc, hrr⟩
        apply hii
        rw [hidx0n]
        have hc0n : c0.toNat = (t.deck.CardToIndex c r).toNat / t.deck.num_ranks := by
          omega
        have hr0n : r0.toNat = (t.deck.CardToIndex c r).toNat % t.deck.num_ranks := by
          omega
        rw [hc0n, hr0n]
        exact Nat.div_add_mod' _ _
    -- the new supply count
    have hccnew : HanabiDeck.CardCount
        { card_count := t.deck.card_count.set (t.deck.CardToIndex c r).toNat
            (t.deck.card_count.getD (t.deck.CardToIndex c r).toNat 0 - 1),
          total_count := t.deck.total_count - 1, num_ranks := t.deck.num_ranks } c0 r0
        = t.deck.CardCount c0 r0
          - (if (t.deck.CardToIndex c0 r0).toNat = (t.deck.CardToIndex c r).toNat
             then (1 : Int) else 0) := by
      have hsameidx : HanabiDeck.CardToIndex
          { card_count := t.deck.card_count.set (t.deck.CardToIndex c r).toNat
              (t.deck.card_count.getD (t.deck.CardToIndex c r).toNat 0 - 1),
            total_count := t.deck.total_count - 1, num_ranks := t.deck.num_ranks } c0 r0
          = t.deck.CardToIndex c0 r0 := rfl
      unfold HanabiDeck.CardCount
      dsimp only
      rw [hsameidx, if_neg hidx0, if_neg hidx0]
      by_cases hii : (t.deck.CardToIndex c0 r0).toNat = (t.deck.CardToIndex c r).toNat
      · rw [if_pos hii, hii, getD_eq_of_getElem? 0 (List.getElem?_set_self hlenidx)]
      · rw [if_neg hii,
          List.getD_eq_getElem?_getD, List.getElem?_set_ne (fun hz => hii hz.symm),
          ← List.getD_eq_getElem?_getD]
        ring
    rw [hccnew]
    unfold handsOcc at hbase ⊢
    dsimp only at hho happ
    rw [hho, happ, hmatch]
    omega

end Hanabi

namespace Hanabi

theorem inv_stepMove {t t1 : HanabiState} {m : HanabiMove}
    (hinv : Inv t) (hleg : t.MoveIsLegal m = true) (hstep : t.stepMove m = some t1) :
    Inv t1 := by
  cases m with
  | deal c r => exact inv_applyDeal hinv (legal_deal_inv hleg).2 hstep
  | discard i => exact inv_applyDiscard hinv hstep
  | play i => exact inv_applyPlay hinv hstep
  | revealColor off c => exact inv_applyRevealColor hinv hstep
  | revealRank off r => exact inv_applyRevealRank hinv hstep
  | invalid => exact Option.noConfusion hstep

/-- Every reachable state satisfies the full invariant. -/
theorem reachable_inv {s : HanabiState} (h : Reachable s) : Inv s := by
  induction h with
  | init g start hg h0 h1 => exact inv_init g start hg
  | step s s' m hs hap ih =>
    obtain ⟨hleg, s1, hstep, rfl⟩ := ApplyMove_inv hap
    have h1 : Inv s.tickTurns := inv_tickTurns ih
    have hleg1 : s.tickTurns.MoveIsLegal m = true := by
      rw [tickTurns_MoveIsLegal]
      exact hleg
    exact inv_advance (inv_stepMove h1 hleg1 hstep)

/-- Claim C5: in every state reachable from a fresh construction by legal
moves, and for every (color, rank) identity, the supply's remaining count
plus the identity's occurrences in all hands, plus its occurrences in the
discard pile, plus one exactly when its rank is below that color's fireworks
progress, equals the configured multiplicity — and no supply count is ever
negative. -/
theorem conservation_invariant (s : HanabiState) (hs : Reachable s) (c r : Int)
    (hc0 : 0 ≤ c) (hc1 : c < (s.game.numColors : Int))
    (hr0 : 0 ≤ r) (hr1 : r < (s.game.numRanks : Int)) :
    (s.deck.CardCount c r + handsOcc s.hands c r + occList c r s.discard_pile +
      (if r < s.fireworks.getD c.toNat 0 then 1 else 0)
      = s.game.numberCardInstances c.toNat r.toNat) ∧
    (∀ x ∈ s.deck.card_count, 0 ≤ x) := by
  obtain ⟨_, _, _, hdwf, _, _, _, _, _, _, _, _, heq⟩ := reachable_inv hs
  exact ⟨heq c r hc0 hc1 hr0 hr1, hdwf.2⟩

theorem witnessGame_wf : GameWF witnessGame := by
  unfold GameWF
  refine ⟨by decide, by decide, by decide, by decide, by decide, ?_⟩
  intro c _ r _
  exact (by decide : (0 : Int) ≤ 2)

/-- Witness for C5 at the freshly constructed two-player one-identity game:
the supply holds both copies of (0, 0), hands, discards and fireworks hold
none, matching the configured multiplicity 2. -/
theorem conservation_invariant_witness :
    ((HanabiState.init witnessGame 0).deck.CardCount 0 0
        + handsOcc (HanabiState.init witnessGame 0).hands 0 0
        + occList 0 0 (HanabiState.init witnessGame 0).discard_pile
        + (if (0 : Int) < (HanabiState.init witnessGame 0).fireworks.getD 0 0 then 1 else 0)
      = witnessGame.numberCardInstances 0 0) ∧
    (∀ x ∈ (HanabiState.init witnessGame 0).deck.card_count, 0 ≤ x) := by
  have h := conservation_invariant (HanabiState.init witnessGame 0)
    (Reachable.init witnessGame 0 witnessGame_wf (by decide) (by decide))
    0 0 (by decide) (by decide) (by decide) (by decide)
  exact ⟨h.1, h.2⟩

/-- Claim C6: in every state reachable by legal move applications, the token
counters satisfy `0 ≤ informationTokens ≤ MaxInformationTokens` and
`0 ≤ lifeTokens ≤ MaxLifeTokens`. -/
theorem token_bounds (s : HanabiState) (hs : Reachable s) :
    0 ≤ s.information_tokens ∧ s.information_tokens ≤ s.game.maxInformationTokens ∧
    0 ≤ s.life_tokens ∧ s.life_tokens ≤ s.game.maxLifeTokens := by
  obtain ⟨_, _, _, _, _, _, _, _, hi0, hi1, hl0, hl1, _⟩ := reachable_inv hs
  exact ⟨hi0, hi1, hl0, hl1⟩

/-- Witness for C6: the bounds hold at the state obtained by playing the
scoring card from the concrete state `c1Before` (itself reachable only as a
direct state; here the bounds are checked on a freshly constructed state
after one legal deal). -/
theorem token_bounds_witness :
    ∃ s', (HanabiState.init witnessGame 0).ApplyMove (.deal 0 0) = some s' ∧
      0 ≤ s'.information_tokens ∧
      s'.information_tokens ≤ s'.game.maxInformationTokens ∧
      0 ≤ s'.life_tokens ∧ s'.life_tokens ≤ s'.game.maxLifeTokens := by
  cases hap : (HanabiState.init witnessGame 0).ApplyMove (.deal 0 0) with
  | none =>
    have hsome : ((HanabiState.init witnessGame 0).ApplyMove (.deal 0 0)).isSome = true := rfl
    rw [hap] at hsome
    exact Bool.noConfusion hsome
  | some s2 =>
    refine ⟨s2, rfl, ?_⟩
    exact token_bounds s2 (Reachable.step _ s2 (.deal 0 0)
      (Reachable.init witnessGame 0 witnessGame_wf (by decide) (by decide)) hap)

end Hanabi

namespace Hanabi

/-! ## Claim C8: chance outcomes form the categorical deal distribution -/

theorem sum_map_filter_eq {α : Type*} (l : List α) (p : α → Bool) (f : α → ℚ)
    (h0 : ∀ x ∈ l, p x = false → f x = 0) :
    ((l.filter p).map f).sum = (l.map f).sum := by
  induction l with
  | nil => simp
  | cons x t ih =>
    have ih2 := ih (fun y hy hpy => h0 y (List.mem_cons_of_mem x hy) hpy)
    rcases Bool.eq_false_or_eq_true (p x) with hpx | hpx
    · rw [List.filter_cons_of_pos hpx, List.map_cons, List.map_cons, List.sum_cons,
        List.sum_cons, ih2]
    · rw [List.filter_cons_of_neg (by simp [hpx]), List.map_cons, List.sum_cons, ih2,
        h0 x (List.mem_cons_self x t) hpx]
      ring

theorem sum_range_getD_int (l : List Int) :
    ((List.range l.length).map (fun u => ((l.getD u 0 : Int) : ℚ))).sum = (l.sum : ℚ) := by
  induction l with
  | nil => simp
  | cons x t ih =>
    rw [List.length_cons, List.range_succ_eq_map, List.map_cons, List.map_map]
    simp only [List.sum_cons, List.getD_cons_zero]
    have hmap : (List.range t.length).map
        ((fun u => (((x :: t).getD u 0 : Int) : ℚ)) ∘ Nat.succ)
        = (List.range t.length).map (fun u => ((t.getD u 0 : Int) : ℚ)) := by
      apply List.map_congr_left
      intro u _
      simp [List.getD_cons_succ]
    rw [hmap, ih]
    push_cast
    ring

/-- Claim C8: whenever the chance actor is to act and the supply is non-empty
(and the supply satisfies its representation invariant), `ChanceOutcomes()`
returns exactly the catalog's Deal moves whose identity has positive
remaining count, each paired with probability remaining-count over total
supply size, and those probabilities sum to 1. -/
theorem chance_outcomes_spec (s : HanabiState)
    (hcur : s.cur_player = kChancePlayerId)
    (hne : s.deck.total_count ≠ 0)
    (hwf : DeckWF s.deck)
    (hdl : s.deck.card_count.length = s.game.numColors * s.game.numRanks)
    (hdn : s.deck.num_ranks = s.game.numRanks) :
    (s.ChanceOutcomes).1 = (HanabiState.chanceOutcomeCatalog s.game).filter
      (fun m => decide (0 < s.deck.CardCount m.Color m.Rank)) ∧
    (s.ChanceOutcomes).2 = (s.ChanceOutcomes).1.map
      (fun m => (s.deck.CardCount m.Color m.Rank : ℚ) / (s.deck.total_count : ℚ)) ∧
    (s.ChanceOutcomes).2.sum = 1 := by
  obtain ⟨htot, hnn⟩ := hwf
  have hfilter : (HanabiState.chanceOutcomeCatalog s.game).filter (fun m => s.MoveIsLegal m)
      = (HanabiState.chanceOutcomeCatalog s.game).filter
        (fun m => decide (0 < s.deck.CardCount m.Color m.Rank)) := by
    apply List.filter_congr
    intro m hm
    unfold HanabiState.chanceOutcomeCatalog at hm
    rw [List.mem_map] at hm
    obtain ⟨u, hu, rfl⟩ := hm
    unfold HanabiState.MoveIsLegal HanabiMove.Color HanabiMove.Rank
    dsimp only
    rw [if_neg (by simp [hcur])]
    have hnonneg : 0 ≤ s.deck.CardCount ((u / s.game.numRanks : Nat) : Int)
        ((u % s.game.numRanks : Nat) : Int) := CardCount_nonneg hnn _ _
    by_cases hz : s.deck.CardCount ((u / s.game.numRanks : Nat) : Int)
        ((u % s.game.numRanks : Nat) : Int) = 0
    · rw [if_pos hz, eq_comm, decide_eq_false_iff_not]
      omega
    · rw [if_neg hz, eq_comm, decide_eq_true_eq]
      omega
  have hout1 : (s.ChanceOutcomes).1 = (HanabiState.chanceOutcomeCatalog s.game).filter
      (fun m => decide (0 < s.deck.CardCount m.Color m.Rank)) := by
    unfold HanabiState.ChanceOutcomes
    dsimp only
    exact hfilter
  refine ⟨hout1, rfl, ?_⟩
  have hcast : ((s.deck.total_count : Int) : ℚ) ≠ 0 := Int.cast_ne_zero.mpr hne
  show ((((HanabiState.chanceOutcomeCatalog s.game).filter (fun m => s.MoveIsLegal m)).map
    (fun m => s.ChanceOutcomeProb m)).sum) = 1
  rw [hfilter, sum_map_filter_eq _ _ _ ?_]
  · unfold HanabiState.chanceOutcomeCatalog
    rw [List.map_map]
    have hcc : ∀ u ∈ List.range (s.game.numColors * s.game.numRanks),
        ((fun m => s.ChanceOutcomeProb m) ∘ fun u =>
          HanabiMove.deal ((u / s.game.numRanks : Nat) : Int)
            ((u % s.game.numRanks : Nat) : Int)) u
        = ((s.deck.card_count.getD u 0 : Int) : ℚ) * ((s.deck.total_count : Int) : ℚ)⁻¹ := by
      intro u hu
      rw [List.mem_range] at hu
      show s.ChanceOutcomeProb (.deal _ _) = _
      unfold HanabiState.ChanceOutcomeProb HanabiDeck.Size HanabiMove.Color HanabiMove.Rank
      dsimp only
      have hcount : s.deck.CardCount ((u / s.game.numRanks : Nat) : Int)
          ((u % s.game.numRanks : Nat) : Int) = s.deck.card_count.getD u 0 := by
        unfold HanabiDeck.CardCount
        dsimp only
        have hidxu : s.deck.CardToIndex ((u / s.game.numRanks : Nat) : Int)
            ((u % s.game.numRanks : Nat) : Int) = (u : Int) := by
          unfold HanabiDeck.CardToIndex
          rw [hdn, ← Nat.cast_mul, ← Nat.cast_add, Nat.div_add_mod']
        rw [hidxu, if_neg (by omega)]
        simp
      rw [hcount, div_eq_mul_inv]
    rw [List.map_congr_left hcc]
    have hrange : List.range (s.game.numColors * s.game.numRanks)
        = List.range s.deck.card_count.length := by
      rw [hdl]
    rw [hrange, List.sum_map_mul_right, sum_range_getD_int, ← htot,
      mul_inv_cancel₀ hcast]
  · intro m hm hpm
    rw [decide_eq_false_iff_not] at hpm
    have hnonneg : 0 ≤ s.deck.CardCount m.Color m.Rank := CardCount_nonneg hnn _ _
    have hz : s.deck.CardCount m.Color m.Rank = 0 := by omega
    unfold HanabiState.ChanceOutcomeProb
    rw [hz]
    simp

end Hanabi

namespace Hanabi

/-- Witness for C8: at the freshly constructed one-identity game the chance
actor faces a single deal outcome with probability one. -/
theorem chance_outcomes_spec_witness :
    (HanabiState.init witnessGame 0).cur_player = kChancePlayerId ∧
    (HanabiState.init witnessGame 0).deck.total_count ≠ 0 ∧
    ((HanabiState.init witnessGame 0).ChanceOutcomes).2.sum = 1 := by
  refine ⟨rfl, by decide, ?_⟩
  exact (chance_outcomes_spec (HanabiState.init witnessGame 0) rfl (by decide)
    ⟨rfl, by decide⟩ rfl rfl).2.2

end Hanabi
